import Mathlib

/-!
# Verification of the term-collection and factoring engine (`sympy/core/exprtools.py`)

Shallow embedding of the `Factors` / `Term` data model, the sum-GCD engine
`_gcd_terms`, the noncommutative masking protocol `_mask_nc`, and the branch
structure of `factor_nc`, together with proofs of the specified properties.

A Python dictionary mapping factors to integer exponents is embedded as an
association list (`Factors α := List (α × Int)`) that mirrors CPython dict
semantics exactly: assignment to an existing key replaces the value in place,
assignment to a fresh key appends at the end, deletion removes the entry, and
iteration follows the list order.  Dictionary equality (Python `==`) is
extensional equality of lookups, `feq`.
-/

section DictModel

/-- The `factors` dictionary of the Python `Factors` class: an insertion-ordered
map from factor to integer exponent. -/
abbrev Factors (α : Type) : Type := List (α × Int)

variable {α : Type} [DecidableEq α]

/-- Python `d[k]` / `k in d`: lookup of the entry with key `k`. -/
def dget (d : Factors α) (k : α) : Option Int :=
  match d with
  | [] => none
  | p :: t => if p.1 = k then some p.2 else dget t k

/-- Keys of the dictionary are nowhere duplicated (always true of a Python dict). -/
def NodupKeys (d : Factors α) : Prop := (d.map Prod.fst).Nodup

/-- Replace the value stored at an existing key, keeping its position. -/
def dsetAux (d : Factors α) (k : α) (v : Int) : Factors α :=
  d.map fun p => if p.1 = k then (k, v) else p

/-- Python `d[k] = v`: replace in place when the key is present, append otherwise. -/
def dset (d : Factors α) (k : α) (v : Int) : Factors α :=
  if dget d k = none then d ++ [(k, v)] else dsetAux d k v

/-- Python `del d[k]`: drop the entry with key `k`, keeping the rest in order. -/
def ddel (d : Factors α) (k : α) : Factors α :=
  match d with
  | [] => []
  | p :: t => if p.1 = k then ddel t k else p :: ddel t k

/-- Python dictionary equality `==`: the two maps agree on every key. -/
def feq (a b : Factors α) : Prop := ∀ f : α, dget a f = dget b f

theorem dget_none_iff (d : Factors α) (f : α) :
    dget d f = none ↔ f ∉ d.map Prod.fst := by
  induction d with
  | nil => simp [dget]
  | cons p t ih =>
    by_cases h : p.1 = f
    · subst h; simp [dget]
    · simp only [dget, if_neg h, List.map_cons, List.mem_cons, ih]
      constructor
      · rintro hn (rfl | hm)
        · exact h rfl
        · exact hn hm
      · intro hn hm; exact hn (Or.inr hm)

theorem mem_of_dget (d : Factors α) (f : α) (e : Int) (h : dget d f = some e) :
    (f, e) ∈ d := by
  induction d with
  | nil => simp [dget] at h
  | cons p t ih =>
    obtain ⟨a, b⟩ := p
    by_cases hp : a = f
    · subst hp
      simp only [dget, if_pos rfl] at h
      injection h with h1
      subst h1
      exact List.mem_cons_self _ _
    · simp only [dget, if_neg hp] at h
      exact List.mem_cons_of_mem _ (ih h)

theorem dget_of_mem (d : Factors α) (hd : NodupKeys d) {f : α} {e : Int}
    (h : (f, e) ∈ d) : dget d f = some e := by
  induction d with
  | nil => cases h
  | cons p t ih =>
    simp only [NodupKeys, List.map_cons, List.nodup_cons] at hd
    rcases List.mem_cons.mp h with h1 | h1
    · subst h1; simp [dget]
    · have hne : p.1 ≠ f := by
        rintro rfl
        exact hd.1 (List.mem_map.mpr ⟨(p.1, e), h1, rfl⟩)
      simp only [dget, if_neg hne]
      exact ih hd.2 h1

theorem dget_append (l₁ l₂ : Factors α) (f : α) :
    dget (l₁ ++ l₂) f =
      match dget l₁ f with
      | some e => some e
      | none => dget l₂ f := by
  induction l₁ with
  | nil => simp [dget]
  | cons p t ih =>
    by_cases h : p.1 = f <;> simp [dget, h, ih]

theorem dget_dsetAux_ne (d : Factors α) (k f : α) (v : Int) (h : f ≠ k) :
    dget (dsetAux d k v) f = dget d f := by
  induction d with
  | nil => rfl
  | cons p t ih =>
    by_cases hp : p.1 = k
    · have hkf : ¬ (k = f) := fun hh => h hh.symm
      have hpf : ¬ (p.1 = f) := by rw [hp]; exact hkf
      simp only [dsetAux, List.map_cons, if_pos hp, dget, if_neg hkf, if_neg hpf]
      exact ih
    · simp only [dsetAux, List.map_cons, if_neg hp, dget]
      by_cases hf : p.1 = f
      · rw [if_pos hf, if_pos hf]
      · rw [if_neg hf, if_neg hf]
        exact ih

theorem dget_dsetAux_self (d : Factors α) (k : α) (v : Int) {e : Int}
    (h : dget d k = some e) : dget (dsetAux d k v) k = some v := by
  induction d with
  | nil => simp [dget] at h
  | cons p t ih =>
    by_cases hp : p.1 = k
    · simp [dsetAux, dget, hp]
    · simp only [dget, if_neg hp] at h
      simp only [dsetAux, List.map_cons, if_neg hp, dget, if_neg hp]
      exact ih h

theorem dget_cons_ne {p : α × Int} {t : Factors α} {f : α} (h : ¬ p.1 = f) :
    dget (p :: t) f = dget t f := by
  simp only [dget, if_neg h]

theorem dget_dset_self (d : Factors α) (k : α) (v : Int) :
    dget (dset d k v) k = some v := by
  unfold dset
  by_cases h : dget d k = none
  · rw [if_pos h, dget_append]
    simp [h, dget]
  · rw [if_neg h]
    rcases Option.ne_none_iff_exists'.mp h with ⟨e, he⟩
    exact dget_dsetAux_self d k v he

theorem dget_dset_ne (d : Factors α) (k f : α) (v : Int) (h : f ≠ k) :
    dget (dset d k v) f = dget d f := by
  unfold dset
  by_cases hn : dget d k = none
  · rw [if_pos hn, dget_append]
    cases hd : dget d f with
    | none =>
      have hkf : ¬ (k = f) := fun hh => h hh.symm
      simp only [dget, if_neg hkf]
    | some e => rfl
  · rw [if_neg hn]
    exact dget_dsetAux_ne d k f v h

theorem dget_ddel_self (d : Factors α) (k : α) : dget (ddel d k) k = none := by
  induction d with
  | nil => rfl
  | cons p t ih =>
    by_cases hp : p.1 = k
    · simpa [ddel, hp] using ih
    · simpa [ddel, hp, dget] using ih

theorem dget_ddel_ne (d : Factors α) (k f : α) (h : f ≠ k) :
    dget (ddel d k) f = dget d f := by
  induction d with
  | nil => rfl
  | cons p t ih =>
    by_cases hp : p.1 = k
    · have hpf : ¬ (p.1 = f) := fun hh => h (hh.symm.trans hp)
      rw [show ddel (p :: t) k = ddel t k from by simp [ddel, hp],
        dget_cons_ne hpf]
      exact ih
    · rw [show ddel (p :: t) k = p :: ddel t k from by simp [ddel, hp]]
      by_cases hf : p.1 = f
      · simp [dget, hf]
      · rw [dget_cons_ne hf, dget_cons_ne hf]
        exact ih

theorem ddel_of_none (d : Factors α) (k : α) (h : dget d k = none) :
    ddel d k = d := by
  induction d with
  | nil => rfl
  | cons p t ih =>
    by_cases hp : p.1 = k
    · simp [dget, hp] at h
    · simp only [dget, if_neg hp] at h
      simp [ddel, hp, ih h]

theorem keys_ddel_sublist (d : Factors α) (k : α) :
    ((ddel d k).map Prod.fst).Sublist (d.map Prod.fst) := by
  induction d with
  | nil => simp [ddel]
  | cons p t ih =>
    by_cases hp : p.1 = k
    · rw [show ddel (p :: t) k = ddel t k from by simp [ddel, hp]]
      exact ih.trans (List.sublist_cons_self _ _)
    · rw [show ddel (p :: t) k = p :: ddel t k from by simp [ddel, hp]]
      simpa using ih.cons₂ p.1

theorem keys_dsetAux (d : Factors α) (k : α) (v : Int) :
    (dsetAux d k v).map Prod.fst = d.map Prod.fst := by
  induction d with
  | nil => rfl
  | cons p t ih =>
    show (((if p.1 = k then (k, v) else p)) :: dsetAux t k v).map Prod.fst = _
    by_cases hp : p.1 = k
    · rw [if_pos hp]
      simp only [List.map_cons]
      exact congrArg₂ List.cons hp.symm ih
    · rw [if_neg hp]
      simp only [List.map_cons]
      exact congrArg (List.cons p.1) ih

theorem nodupKeys_dset (d : Factors α) (k : α) (v : Int) (hd : NodupKeys d) :
    NodupKeys (dset d k v) := by
  unfold dset
  by_cases h : dget d k = none
  · rw [if_pos h]
    unfold NodupKeys at *
    rw [List.map_append]
    simp only [List.map_cons, List.map_nil]
    rw [List.nodup_append]
    refine ⟨hd, List.nodup_singleton k, ?_⟩
    intro a ha hb
    simp only [List.mem_singleton] at hb
    subst hb
    exact (dget_none_iff d a).mp h ha
  · rw [if_neg h]
    unfold NodupKeys
    rw [keys_dsetAux]
    exact hd

theorem nodupKeys_ddel (d : Factors α) (k : α) (hd : NodupKeys d) :
    NodupKeys (ddel d k) :=
  (keys_ddel_sublist d k).nodup hd

instance nodupKeysDecidable (d : Factors α) : Decidable (NodupKeys d) :=
  inferInstanceAs (Decidable (d.map Prod.fst).Nodup)

instance feqDecidable (a b : Factors α) : Decidable (feq a b) :=
  decidable_of_iff (∀ f ∈ a.map Prod.fst ++ b.map Prod.fst, dget a f = dget b f) <| by
    constructor
    · intro h f
      by_cases hf : f ∈ a.map Prod.fst ++ b.map Prod.fst
      · exact h f hf
      · simp only [List.mem_append] at hf
        push_neg at hf
        rw [(dget_none_iff a f).mpr hf.1, (dget_none_iff b f).mpr hf.2]
    · intro h f _
      exact h f

end DictModel

section FactorsOps

variable {α : Type} [DecidableEq α]

/-- One iteration of the loop of `Factors.mul` (exprtools.py lines 117-130):
for an entry `(factor, exp)` of `other`, add `exp` onto the accumulated dict,
deleting the key when the sum vanishes. -/
def Factors.mulStep (acc : Factors α) (fe : α × Int) : Factors α :=
  match dget acc fe.1 with
  | some e0 => if e0 + fe.2 = 0 then ddel acc fe.1 else dset acc fe.1 (e0 + fe.2)
  | none => dset acc fe.1 fe.2

/-- `Factors.mul`: start from a copy of `self.factors` and fold the entries of
`other.factors` in iteration order. -/
def Factors.mul (a b : Factors α) : Factors α :=
  b.foldl Factors.mulStep a

/-- One iteration of the loop of `Factors.div` (exprtools.py lines 132-152) on
the state `(quo, rem)`. -/
def Factors.divStep (qr : Factors α × Factors α) (fe : α × Int) :
    Factors α × Factors α :=
  match dget qr.1 fe.1 with
  | some e0 =>
    if e0 - fe.2 = 0 then (ddel qr.1 fe.1, qr.2)
    else if 0 < e0 - fe.2 then (dset qr.1 fe.1 (e0 - fe.2), qr.2)
    else (ddel qr.1 fe.1, dset qr.2 fe.1 (-(e0 - fe.2)))
  | none => (qr.1, dset qr.2 fe.1 fe.2)

/-- `Factors.div`: `quo` starts as a copy of `self.factors`, `rem` empty. -/
def Factors.div (a b : Factors α) : Factors α × Factors α :=
  b.foldl Factors.divStep (a, [])

/-- `Factors.quo`. -/
def Factors.quo (a b : Factors α) : Factors α := (Factors.div a b).1

/-- `Factors.rem`. -/
def Factors.rem (a b : Factors α) : Factors α := (Factors.div a b).2

/-- `Factors.pow` (exprtools.py lines 160-170).  The Python code accepts only a
value of type `int` that is non-negative; any non-integer or negative exponent
raises `ValueError`.  The argument is embedded as a rational so that
non-integer inputs are expressible: the type check `type(other) is int`
becomes `n.den = 1`. -/
def Factors.pow (a : Factors α) (n : Rat) : Except String (Factors α) :=
  if n.den = 1 ∧ 0 ≤ n.num then
    Except.ok (if n.num = 0 then [] else a.map fun p => (p.1, p.2 * n.num))
  else Except.error "expected non-negative integer"

/-- One iteration of the loop of `Factors.gcd` (exprtools.py lines 172-180):
keep the minimum exponent for a factor shared with the fixed `other` dict `b`. -/
def Factors.gcdStep (b : Factors α) (acc : Factors α) (fe : α × Int) :
    Factors α :=
  match dget b fe.1 with
  | some e2 => dset acc fe.1 (min fe.2 e2)
  | none => acc

/-- `Factors.gcd`: fresh dict, minimum exponent for every shared factor. -/
def Factors.gcd (a b : Factors α) : Factors α :=
  a.foldl (Factors.gcdStep b) []

/-- One iteration of the loop of `Factors.lcm` (exprtools.py lines 182-191):
maximum exponent for a shared factor, append the entry otherwise. -/
def Factors.lcmStep (acc : Factors α) (fe : α × Int) : Factors α :=
  match dget acc fe.1 with
  | some e1 => dset acc fe.1 (max e1 fe.2)
  | none => dset acc fe.1 fe.2

/-- `Factors.lcm`: copy of `self.factors`, folded over `other`'s entries. -/
def Factors.lcm (a b : Factors α) : Factors α :=
  b.foldl Factors.lcmStep a

/-- One iteration of the loop of `Factors.normal` (exprtools.py lines 92-115)
on the state `(self_factors, other_factors)`; the loop reads exponents from the
original `other.factors`, here the fixed parameter `b`. -/
def Factors.normalStep (b : Factors α) (so : Factors α × Factors α)
    (fe : α × Int) : Factors α × Factors α :=
  match dget b fe.1 with
  | none => so
  | some be =>
    if fe.2 - be = 0 then (ddel so.1 fe.1, ddel so.2 fe.1)
    else if 0 < fe.2 - be then (dset so.1 fe.1 (fe.2 - be), ddel so.2 fe.1)
    else (ddel so.1 fe.1, dset so.2 fe.1 (-(fe.2 - be)))

/-- `Factors.normal`: cross-cancel the factors shared between the two dicts. -/
def Factors.normal (a b : Factors α) : Factors α × Factors α :=
  a.foldl (Factors.normalStep b) (a, b)

end FactorsOps

section FoldObs

variable {α : Type} [DecidableEq α]

/-- Folding steps that each touch only their own key leave the observation at
an untouched key unchanged. -/
theorem foldl_obs_skip {σ β : Type} (step : σ → α × Int → σ) (obs : α → σ → β)
    (hstep : ∀ s (g : α) (e : Int) (f : α), f ≠ g →
      obs f (step s (g, e)) = obs f s)
    (l : List (α × Int)) (s : σ) (f : α) (hf : f ∉ l.map Prod.fst) :
    obs f (l.foldl step s) = obs f s := by
  induction l generalizing s with
  | nil => rfl
  | cons p t ih =>
    simp only [List.map_cons, List.mem_cons] at hf
    push_neg at hf
    rw [List.foldl_cons, ih _ hf.2, hstep _ _ _ _ hf.1]

/-- For a fold over a dup-free dict, the observation at a key present in the
dict is obtained by running that key's single step on any state with the same
observation. -/
theorem foldl_obs_mem {σ β : Type} (step : σ → α × Int → σ) (obs : α → σ → β)
    (hstep : ∀ s (g : α) (e : Int) (f : α), f ≠ g →
      obs f (step s (g, e)) = obs f s)
    (hdet : ∀ (f : α) (e : Int) (s s' : σ), obs f s = obs f s' →
      obs f (step s (f, e)) = obs f (step s' (f, e)))
    (l : List (α × Int)) (f : α) (e : Int) (hn : (l.map Prod.fst).Nodup)
    (hmem : (f, e) ∈ l) (s s' : σ) (hss : obs f s = obs f s') :
    obs f (l.foldl step s) = obs f (step s' (f, e)) := by
  induction l generalizing s with
  | nil => cases hmem
  | cons p t ih =>
    simp only [List.map_cons, List.nodup_cons] at hn
    rcases List.mem_cons.mp hmem with h1 | h1
    · subst h1
      rw [List.foldl_cons,
        foldl_obs_skip step obs hstep t _ f (by simpa using hn.1)]
      exact hdet f e s s' hss
    · have hfm : f ∈ t.map Prod.fst := List.mem_map.mpr ⟨(f, e), h1, rfl⟩
      have hf : f ≠ p.1 := fun hfe => hn.1 (hfe ▸ hfm)
      rw [List.foldl_cons]
      exact ih hn.2 h1 _ ((hstep s p.1 p.2 f hf).trans hss)

set_option linter.unusedSectionVars false

section Pointwise

variable {α : Type} [DecidableEq α]

theorem dget_mulStep_self (s : Factors α) (f : α) (e : Int) :
    dget (Factors.mulStep s (f, e)) f =
      match dget s f with
      | some e0 => if e0 + e = 0 then none else some (e0 + e)
      | none => some e := by
  unfold Factors.mulStep
  cases hs : dget s f with
  | some e0 =>
    by_cases h0 : e0 + e = 0
    · simp only [if_pos h0]
      exact dget_ddel_self s f
    · simp only [if_neg h0]
      exact dget_dset_self s f _
  | none => exact dget_dset_self s f _

theorem dget_mulStep_ne (s : Factors α) (g : α) (e : Int) (f : α) (h : f ≠ g) :
    dget (Factors.mulStep s (g, e)) f = dget s f := by
  unfold Factors.mulStep
  cases hs : dget s g with
  | some e0 =>
    by_cases h0 : e0 + e = 0
    · simp only [if_pos h0]
      exact dget_ddel_ne s g f h
    · simp only [if_neg h0]
      exact dget_dset_ne s g f _ h
  | none => exact dget_dset_ne s g f _ h

theorem dget_mulStep_det (f : α) (e : Int) (s s' : Factors α)
    (h : dget s f = dget s' f) :
    dget (Factors.mulStep s (f, e)) f = dget (Factors.mulStep s' (f, e)) f := by
  rw [dget_mulStep_self, dget_mulStep_self, h]

theorem dget_mul (a b : Factors α) (hb : NodupKeys b) (f : α) :
    dget (Factors.mul a b) f =
      match dget a f, dget b f with
      | x, none => x
      | some e0, some e => if e0 + e = 0 then none else some (e0 + e)
      | none, some e => some e := by
  cases hbf : dget b f with
  | none =>
    have h0 : dget (Factors.mul a b) f = dget a f :=
      foldl_obs_skip Factors.mulStep (fun f s => dget s f)
        (fun s g e f h => dget_mulStep_ne s g e f h) b a f
        ((dget_none_iff b f).mp hbf)
    rw [h0]
    cases dget a f <;> rfl
  | some e =>
    have h0 : dget (Factors.mul a b) f = dget (Factors.mulStep a (f, e)) f :=
      foldl_obs_mem Factors.mulStep (fun f s => dget s f)
        (fun s g e f h => dget_mulStep_ne s g e f h)
        (fun f e s s' h => dget_mulStep_det f e s s' h)
        b f e hb (mem_of_dget b f e hbf) a a rfl
    rw [h0, dget_mulStep_self]
    cases dget a f <;> rfl

theorem dget_divStep_self (qr : Factors α × Factors α) (f : α) (e : Int) :
    (dget (Factors.divStep qr (f, e)).1 f, dget (Factors.divStep qr (f, e)).2 f) =
      match dget qr.1 f with
      | some e0 =>
        if e0 - e = 0 then (none, dget qr.2 f)
        else if 0 < e0 - e then (some (e0 - e), dget qr.2 f)
        else (none, some (-(e0 - e)))
      | none => (dget qr.1 f, some e) := by
  unfold Factors.divStep
  cases hs : dget qr.1 f with
  | some e0 =>
    by_cases h0 : e0 - e = 0
    · simp only [if_pos h0, dget_ddel_self]
    · by_cases h1 : 0 < e0 - e
      · simp only [if_neg h0, if_pos h1, dget_dset_self]
      · simp only [if_neg h0, if_neg h1, dget_ddel_self, dget_dset_self]
  | none =>
    simp only [dget_dset_self]
    rw [hs]

theorem dget_divStep_ne (qr : Factors α × Factors α) (g : α) (e : Int) (f : α)
    (h : f ≠ g) :
    (dget (Factors.divStep qr (g, e)).1 f, dget (Factors.divStep qr (g, e)).2 f) =
      (dget qr.1 f, dget qr.2 f) := by
  unfold Factors.divStep
  cases hs : dget qr.1 g with
  | some e0 =>
    by_cases h0 : e0 - e = 0
    · simp only [if_pos h0, dget_ddel_ne _ _ _ h]
    · by_cases h1 : 0 < e0 - e
      · simp only [if_neg h0, if_pos h1, dget_dset_ne _ _ _ _ h]
      · simp only [if_neg h0, if_neg h1, dget_ddel_ne _ _ _ h,
          dget_dset_ne _ _ _ _ h]
  | none => simp only [dget_dset_ne _ _ _ _ h]

theorem dget_divStep_det (f : α) (e : Int) (s s' : Factors α × Factors α)
    (h : (dget s.1 f, dget s.2 f) = (dget s'.1 f, dget s'.2 f)) :
    (dget (Factors.divStep s (f, e)).1 f, dget (Factors.divStep s (f, e)).2 f) =
      (dget (Factors.divStep s' (f, e)).1 f,
        dget (Factors.divStep s' (f, e)).2 f) := by
  rw [dget_divStep_self, dget_divStep_self,
    show dget s.1 f = dget s'.1 f from congrArg Prod.fst h,
    show dget s.2 f = dget s'.2 f from congrArg Prod.snd h]

theorem dget_div (a b : Factors α) (hb : NodupKeys b) (f : α) :
    (dget (Factors.div a b).1 f, dget (Factors.div a b).2 f) =
      match dget a f, dget b f with
      | x, none => (x, none)
      | some e0, some e =>
        if e0 - e = 0 then (none, none)
        else if 0 < e0 - e then (some (e0 - e), none)
        else (none, some (-(e0 - e)))
      | none, some e => (none, some e) := by
  cases hbf : dget b f with
  | none =>
    have h0 : (dget (Factors.div a b).1 f, dget (Factors.div a b).2 f) =
        (dget a f, dget ([] : Factors α) f) :=
      foldl_obs_skip Factors.divStep (fun f s => (dget s.1 f, dget s.2 f))
        (fun s g e f h => dget_divStep_ne s g e f h) b (a, ([] : Factors α)) f
        ((dget_none_iff b f).mp hbf)
    rw [h0]
    cases dget a f <;> rfl
  | some e =>
    have h0 : (dget (Factors.div a b).1 f, dget (Factors.div a b).2 f) =
        (dget (Factors.divStep (a, ([] : Factors α)) (f, e)).1 f,
          dget (Factors.divStep (a, ([] : Factors α)) (f, e)).2 f) :=
      foldl_obs_mem Factors.divStep (fun f s => (dget s.1 f, dget s.2 f))
        (fun s g e f h => dget_divStep_ne s g e f h)
        (fun f e s s' h => dget_divStep_det f e s s' h)
        b f e hb (mem_of_dget b f e hbf) (a, ([] : Factors α))
        (a, ([] : Factors α)) rfl
    rw [h0, dget_divStep_self]
    show (match dget a f with
      | some e0 =>
        if e0 - e = 0 then ((none : Option Int), (none : Option Int))
        else if 0 < e0 - e then (some (e0 - e), (none : Option Int))
        else ((none : Option Int), some (-(e0 - e)))
      | none => (dget a f, some e)) = _
    cases dget a f <;> rfl

theorem dget_gcdStep_self (b : Factors α) (s : Factors α) (f : α) (e : Int) :
    dget (Factors.gcdStep b s (f, e)) f =
      match dget b f with
      | some e2 => some (min e e2)
      | none => dget s f := by
  unfold Factors.gcdStep
  cases hb : dget b f with
  | some e2 => exact dget_dset_self s f _
  | none => rfl

theorem dget_gcdStep_ne (b : Factors α) (s : Factors α) (g : α) (e : Int)
    (f : α) (h : f ≠ g) :
    dget (Factors.gcdStep b s (g, e)) f = dget s f := by
  unfold Factors.gcdStep
  cases hb : dget b g with
  | some e2 => exact dget_dset_ne s g f _ h
  | none => rfl

theorem dget_gcdStep_det (b : Factors α) (f : α) (e : Int)
    (s s' : Factors α) (h : dget s f = dget s' f) :
    dget (Factors.gcdStep b s (f, e)) f = dget (Factors.gcdStep b s' (f, e)) f := by
  rw [dget_gcdStep_self, dget_gcdStep_self, h]

theorem dget_gcd (a b : Factors α) (ha : NodupKeys a) (f : α) :
    dget (Factors.gcd a b) f =
      match dget a f, dget b f with
      | some e1, some e2 => some (min e1 e2)
      | _, _ => none := by
  cases haf : dget a f with
  | none =>
    have h0 : dget (Factors.gcd a b) f = dget ([] : Factors α) f :=
      foldl_obs_skip (Factors.gcdStep b) (fun f s => dget s f)
        (fun s g e f h => dget_gcdStep_ne b s g e f h) a ([] : Factors α) f
        ((dget_none_iff a f).mp haf)
    rw [h0]
    cases dget b f <;> rfl
  | some e1 =>
    have h0 : dget (Factors.gcd a b) f =
        dget (Factors.gcdStep b ([] : Factors α) (f, e1)) f :=
      foldl_obs_mem (Factors.gcdStep b) (fun f s => dget s f)
        (fun s g e f h => dget_gcdStep_ne b s g e f h)
        (fun f e s s' h => dget_gcdStep_det b f e s s' h)
        a f e1 ha (mem_of_dget a f e1 haf) ([] : Factors α) ([] : Factors α) rfl
    rw [h0, dget_gcdStep_self]
    cases dget b f <;> rfl

theorem dget_lcmStep_self (s : Factors α) (f : α) (e : Int) :
    dget (Factors.lcmStep s (f, e)) f =
      match dget s f with
      | some e1 => some (max e1 e)
      | none => some e := by
  unfold Factors.lcmStep
  cases hs : dget s f with
  | some e1 => exact dget_dset_self s f _
  | none => exact dget_dset_self s f _

theorem dget_lcmStep_ne (s : Factors α) (g : α) (e : Int) (f : α) (h : f ≠ g) :
    dget (Factors.lcmStep s (g, e)) f = dget s f := by
  unfold Factors.lcmStep
  cases hs : dget s g with
  | some e1 => exact dget_dset_ne s g f _ h
  | none => exact dget_dset_ne s g f _ h

theorem dget_lcmStep_det (f : α) (e : Int) (s s' : Factors α)
    (h : dget s f = dget s' f) :
    dget (Factors.lcmStep s (f, e)) f = dget (Factors.lcmStep s' (f, e)) f := by
  rw [dget_lcmStep_self, dget_lcmStep_self, h]

theorem dget_lcm (a b : Factors α) (hb : NodupKeys b) (f : α) :
    dget (Factors.lcm a b) f =
      match dget a f, dget b f with
      | some e1, some e2 => some (max e1 e2)
      | some e1, none => some e1
      | none, some e2 => some e2
      | none, none => none := by
  cases hbf : dget b f with
  | none =>
    have h0 : dget (Factors.lcm a b) f = dget a f :=
      foldl_obs_skip Factors.lcmStep (fun f s => dget s f)
        (fun s g e f h => dget_lcmStep_ne s g e f h) b a f
        ((dget_none_iff b f).mp hbf)
    rw [h0]
    cases dget a f <;> rfl
  | some e =>
    have h0 : dget (Factors.lcm a b) f = dget (Factors.lcmStep a (f, e)) f :=
      foldl_obs_mem Factors.lcmStep (fun f s => dget s f)
        (fun s g e f h => dget_lcmStep_ne s g e f h)
        (fun f e s s' h => dget_lcmStep_det f e s s' h)
        b f e hb (mem_of_dget b f e hbf) a a rfl
    rw [h0, dget_lcmStep_self]
    cases dget a f <;> rfl

theorem dget_normalStep_self (b : Factors α) (so : Factors α × Factors α)
    (f : α) (se : Int) :
    (dget (Factors.normalStep b so (f, se)).1 f,
      dget (Factors.normalStep b so (f, se)).2 f) =
      match dget b f with
      | none => (dget so.1 f, dget so.2 f)
      | some be =>
        if se - be = 0 then (none, none)
        else if 0 < se - be then (some (se - be), none)
        else (none, some (-(se - be))) := by
  unfold Factors.normalStep
  cases hb : dget b f with
  | none => rfl
  | some be =>
    by_cases h0 : se - be = 0
    · simp only [if_pos h0, dget_ddel_self]
    · by_cases h1 : 0 < se - be
      · simp only [if_neg h0, if_pos h1, dget_dset_self, dget_ddel_self]
      · simp only [if_neg h0, if_neg h1, dget_ddel_self, dget_dset_self]

theorem dget_normalStep_ne (b : Factors α) (so : Factors α × Factors α)
    (g : α) (se : Int) (f : α) (h : f ≠ g) :
    (dget (Factors.normalStep b so (g, se)).1 f,
      dget (Factors.normalStep b so (g, se)).2 f) =
      (dget so.1 f, dget so.2 f) := by
  unfold Factors.normalStep
  cases hb : dget b g with
  | none => rfl
  | some be =>
    by_cases h0 : se - be = 0
    · simp only [if_pos h0, dget_ddel_ne _ _ _ h]
    · by_cases h1 : 0 < se - be
      · simp only [if_neg h0, if_pos h1, dget_dset_ne _ _ _ _ h,
        dget_ddel_ne _ _ _ h]
      · simp only [if_neg h0, if_neg h1, dget_ddel_ne _ _ _ h,
        dget_dset_ne _ _ _ _ h]

theorem dget_normalStep_det (b : Factors α) (f : α) (se : Int)
    (s s' : Factors α × Factors α)
    (h : (dget s.1 f, dget s.2 f) = (dget s'.1 f, dget s'.2 f)) :
    (dget (Factors.normalStep b s (f, se)).1 f,
      dget (Factors.normalStep b s (f, se)).2 f) =
      (dget (Factors.normalStep b s' (f, se)).1 f,
        dget (Factors.normalStep b s' (f, se)).2 f) := by
  rw [dget_normalStep_self, dget_normalStep_self,
    show dget s.1 f = dget s'.1 f from congrArg Prod.fst h,
    show dget s.2 f = dget s'.2 f from congrArg Prod.snd h]

theorem dget_normal (a b : Factors α) (ha : NodupKeys a) (f : α) :
    (dget (Factors.normal a b).1 f, dget (Factors.normal a b).2 f) =
      match dget a f, dget b f with
      | none, y => (none, y)
      | some se, none => (some se, none)
      | some se, some be =>
        if se - be = 0 then (none, none)
        else if 0 < se - be then (some (se - be), none)
        else (none, some (-(se - be))) := by
  cases haf : dget a f with
  | none =>
    have h0 : (dget (Factors.normal a b).1 f, dget (Factors.normal a b).2 f) =
        (dget a f, dget b f) :=
      foldl_obs_skip (Factors.normalStep b)
        (fun f s => (dget s.1 f, dget s.2 f))
        (fun s g e f h => dget_normalStep_ne b s g e f h) a (a, b) f
        ((dget_none_iff a f).mp haf)
    rw [h0, haf]
  | some se =>
    have h0 : (dget (Factors.normal a b).1 f, dget (Factors.normal a b).2 f) =
        (dget (Factors.normalStep b (a, b) (f, se)).1 f,
          dget (Factors.normalStep b (a, b) (f, se)).2 f) :=
      foldl_obs_mem (Factors.normalStep b)
        (fun f s => (dget s.1 f, dget s.2 f))
        (fun s g e f h => dget_normalStep_ne b s g e f h)
        (fun f e s s' h => dget_normalStep_det b f e s s' h)
        a f se ha (mem_of_dget a f se haf) (a, b) (a, b) rfl
    rw [h0, dget_normalStep_self]
    show (match dget b f with
      | none => (dget a f, dget b f)
      | some be =>
        if se - be = 0 then ((none : Option Int), (none : Option Int))
        else if 0 < se - be then (some (se - be), (none : Option Int))
        else ((none : Option Int), some (-(se - be)))) = _
    cases dget b f with
    | none => rw [haf]
    | some be => rfl

end Pointwise

section Preservation

variable {α : Type} [DecidableEq α]

theorem foldl_preserves {σ ι : Type} (P : σ → Prop) (step : σ → ι → σ)
    (h : ∀ s p, P s → P (step s p)) :
    ∀ (l : List ι) (s : σ), P s → P (l.foldl step s) := by
  intro l
  induction l with
  | nil => intro s hs; exact hs
  | cons p t ih =>
    intro s hs
    exact ih _ (h s p hs)

theorem nodupKeys_nil : NodupKeys ([] : Factors α) := List.nodup_nil

theorem nodupKeys_mulStep (s : Factors α) (p : α × Int) (hs : NodupKeys s) :
    NodupKeys (Factors.mulStep s p) := by
  unfold Factors.mulStep
  cases dget s p.1 with
  | some e0 =>
    by_cases h0 : e0 + p.2 = 0
    · simp only [if_pos h0]
      exact nodupKeys_ddel s p.1 hs
    · simp only [if_neg h0]
      exact nodupKeys_dset s p.1 _ hs
  | none => exact nodupKeys_dset s p.1 _ hs

theorem nodupKeys_mul (a b : Factors α) (ha : NodupKeys a) :
    NodupKeys (Factors.mul a b) :=
  foldl_preserves NodupKeys Factors.mulStep nodupKeys_mulStep b a ha

theorem nodupKeys_divStep (s : Factors α × Factors α) (p : α × Int)
    (hs : NodupKeys s.1 ∧ NodupKeys s.2) :
    NodupKeys (Factors.divStep s p).1 ∧ NodupKeys (Factors.divStep s p).2 := by
  unfold Factors.divStep
  cases dget s.1 p.1 with
  | some e0 =>
    by_cases h0 : e0 - p.2 = 0
    · simp only [if_pos h0]
      exact ⟨nodupKeys_ddel s.1 p.1 hs.1, hs.2⟩
    · by_cases h1 : 0 < e0 - p.2
      · simp only [if_neg h0, if_pos h1]
        exact ⟨nodupKeys_dset s.1 p.1 _ hs.1, hs.2⟩
      · simp only [if_neg h0, if_neg h1]
        exact ⟨nodupKeys_ddel s.1 p.1 hs.1, nodupKeys_dset s.2 p.1 _ hs.2⟩
  | none => exact ⟨hs.1, nodupKeys_dset s.2 p.1 _ hs.2⟩

theorem nodupKeys_div (a b : Factors α) (ha : NodupKeys a) :
    NodupKeys (Factors.div a b).1 ∧ NodupKeys (Factors.div a b).2 :=
  foldl_preserves (fun s => NodupKeys s.1 ∧ NodupKeys s.2) Factors.divStep
    nodupKeys_divStep b (a, []) ⟨ha, nodupKeys_nil⟩

theorem nodupKeys_gcd (a b : Factors α) : NodupKeys (Factors.gcd a b) := by
  refine foldl_preserves NodupKeys (Factors.gcdStep b) ?_ a [] nodupKeys_nil
  intro s p hs
  unfold Factors.gcdStep
  cases dget b p.1 with
  | some e2 => exact nodupKeys_dset s p.1 _ hs
  | none => exact hs

theorem nodupKeys_lcm (a b : Factors α) (ha : NodupKeys a) :
    NodupKeys (Factors.lcm a b) := by
  refine foldl_preserves NodupKeys Factors.lcmStep ?_ b a ha
  intro s p hs
  unfold Factors.lcmStep
  cases dget s p.1 with
  | some e1 => exact nodupKeys_dset s p.1 _ hs
  | none => exact nodupKeys_dset s p.1 _ hs

theorem nodupKeys_normal (a b : Factors α) (ha : NodupKeys a)
    (hb : NodupKeys b) :
    NodupKeys (Factors.normal a b).1 ∧ NodupKeys (Factors.normal a b).2 := by
  refine foldl_preserves (fun s => NodupKeys s.1 ∧ NodupKeys s.2)
    (Factors.normalStep b) ?_ a (a, b) ⟨ha, hb⟩
  intro s p hs
  unfold Factors.normalStep
  cases dget b p.1 with
  | none => exact hs
  | some be =>
    by_cases h0 : p.2 - be = 0
    · simp only [if_pos h0]
      exact ⟨nodupKeys_ddel s.1 p.1 hs.1, nodupKeys_ddel s.2 p.1 hs.2⟩
    · by_cases h1 : 0 < p.2 - be
      · simp only [if_neg h0, if_pos h1]
        exact ⟨nodupKeys_dset s.1 p.1 _ hs.1, nodupKeys_ddel s.2 p.1 hs.2⟩
      · simp only [if_neg h0, if_neg h1]
        exact ⟨nodupKeys_ddel s.1 p.1 hs.1, nodupKeys_dset s.2 p.1 _ hs.2⟩

end Preservation

section MultisetAlgebraClaims

/-- C4: for all Factor Multisets `a` and `b` whose entries all have strictly
positive integer exponents, `divide(multiply(a, b), b).quotient == a`, i.e.
`Factors.quo (Factors.mul a b) b` equals `a` as a Python dict. -/
theorem factors_mul_quo_cancel {α : Type} [DecidableEq α] (a b : Factors α)
    (ha : NodupKeys a) (hb : NodupKeys b)
    (hpa : ∀ p ∈ a, 0 < p.2) (hpb : ∀ p ∈ b, 0 < p.2) :
    feq (Factors.quo (Factors.mul a b) b) a := by
  intro f
  rcases haf : dget a f with _ | e1 <;> rcases hbf : dget b f with _ | e2
  · have hm : dget (Factors.mul a b) f = none := by
      simp only [dget_mul a b hb f, haf, hbf]
    have hd : (dget (Factors.div (Factors.mul a b) b).1 f,
        dget (Factors.div (Factors.mul a b) b).2 f) = (none, none) := by
      simp only [dget_div (Factors.mul a b) b hb f, hm, hbf]
    exact congrArg Prod.fst hd
  · have hm : dget (Factors.mul a b) f = some e2 := by
      simp only [dget_mul a b hb f, haf, hbf]
    have hd : (dget (Factors.div (Factors.mul a b) b).1 f,
        dget (Factors.div (Factors.mul a b) b).2 f) = (none, none) := by
      simp only [dget_div (Factors.mul a b) b hb f, hm, hbf,
        if_pos (show e2 - e2 = 0 from by omega)]
    exact congrArg Prod.fst hd
  · have hm : dget (Factors.mul a b) f = some e1 := by
      simp only [dget_mul a b hb f, haf, hbf]
    have hd : (dget (Factors.div (Factors.mul a b) b).1 f,
        dget (Factors.div (Factors.mul a b) b).2 f) = (some e1, none) := by
      simp only [dget_div (Factors.mul a b) b hb f, hm, hbf]
    exact congrArg Prod.fst hd
  · have he1 : 0 < e1 := hpa _ (mem_of_dget a f e1 haf)
    have he2 : 0 < e2 := hpb _ (mem_of_dget b f e2 hbf)
    have hm : dget (Factors.mul a b) f = some (e1 + e2) := by
      simp only [dget_mul a b hb f, haf, hbf,
        if_neg (show ¬ (e1 + e2 = 0) from by omega)]
    have hd : (dget (Factors.div (Factors.mul a b) b).1 f,
        dget (Factors.div (Factors.mul a b) b).2 f) = (some e1, none) := by
      simp only [dget_div (Factors.mul a b) b hb f, hm, hbf,
        if_neg (show ¬ (e1 + e2 - e2 = 0) from by omega),
        if_pos (show 0 < e1 + e2 - e2 from by omega)]
      rw [show e1 + e2 - e2 = e1 from by omega]
    exact congrArg Prod.fst hd

/-- Witness for C4 at a concrete input. -/
theorem factors_mul_quo_cancel_witness :
    (NodupKeys ([(0, 1)] : Factors Nat) ∧
      NodupKeys ([(0, 2), (1, 1)] : Factors Nat) ∧
      (∀ p ∈ ([(0, 1)] : Factors Nat), 0 < p.2) ∧
      (∀ p ∈ ([(0, 2), (1, 1)] : Factors Nat), 0 < p.2)) ∧
    feq (Factors.quo (Factors.mul [(0, 1)] [(0, 2), (1, 1)]) [(0, 2), (1, 1)])
      ([(0, 1)] : Factors Nat) :=
  ⟨⟨by decide, by decide, by decide, by decide⟩,
    factors_mul_quo_cancel _ _ (by decide) (by decide) (by decide) (by decide)⟩

/-- C5: for all Factor Multisets `a` and `b`, `gcd(a, b) * lcm(a, b)` equals
`multiply(a, b)`, factor by factor (Python dict equality). -/
theorem factors_gcd_mul_lcm {α : Type} [DecidableEq α] (a b : Factors α)
    (ha : NodupKeys a) (hb : NodupKeys b) :
    feq (Factors.mul (Factors.gcd a b) (Factors.lcm a b)) (Factors.mul a b) := by
  intro f
  have hlc : NodupKeys (Factors.lcm a b) := nodupKeys_lcm a b ha
  rcases haf : dget a f with _ | e1 <;> rcases hbf : dget b f with _ | e2
  · have hg : dget (Factors.gcd a b) f = none := by
      simp only [dget_gcd a b ha f, haf, hbf]
    have hl : dget (Factors.lcm a b) f = none := by
      simp only [dget_lcm a b hb f, haf, hbf]
    simp only [dget_mul (Factors.gcd a b) (Factors.lcm a b) hlc f, hg, hl,
      dget_mul a b hb f, haf, hbf]
  · have hg : dget (Factors.gcd a b) f = none := by
      simp only [dget_gcd a b ha f, haf, hbf]
    have hl : dget (Factors.lcm a b) f = some e2 := by
      simp only [dget_lcm a b hb f, haf, hbf]
    simp only [dget_mul (Factors.gcd a b) (Factors.lcm a b) hlc f, hg, hl,
      dget_mul a b hb f, haf, hbf]
  · have hg : dget (Factors.gcd a b) f = none := by
      simp only [dget_gcd a b ha f, haf, hbf]
    have hl : dget (Factors.lcm a b) f = some e1 := by
      simp only [dget_lcm a b hb f, haf, hbf]
    simp only [dget_mul (Factors.gcd a b) (Factors.lcm a b) hlc f, hg, hl,
      dget_mul a b hb f, haf, hbf]
  · have hg : dget (Factors.gcd a b) f = some (min e1 e2) := by
      simp only [dget_gcd a b ha f, haf, hbf]
    have hl : dget (Factors.lcm a b) f = some (max e1 e2) := by
      simp only [dget_lcm a b hb f, haf, hbf]
    have hmm : min e1 e2 + max e1 e2 = e1 + e2 := by omega
    simp only [dget_mul (Factors.gcd a b) (Factors.lcm a b) hlc f, hg, hl,
      dget_mul a b hb f, haf, hbf, hmm]

/-- Witness for C5 at a concrete input. -/
theorem factors_gcd_mul_lcm_witness :
    (NodupKeys ([(0, 2), (1, 1)] : Factors Nat) ∧
      NodupKeys ([(0, 1), (2, 3)] : Factors Nat)) ∧
    feq (Factors.mul (Factors.gcd [(0, 2), (1, 1)] [(0, 1), (2, 3)])
        (Factors.lcm [(0, 2), (1, 1)] [(0, 1), (2, 3)]))
      (Factors.mul ([(0, 2), (1, 1)] : Factors Nat) [(0, 1), (2, 3)]) :=
  ⟨⟨by decide, by decide⟩,
    factors_gcd_mul_lcm _ _ (by decide) (by decide)⟩

/-- C10: for all Factor Multisets `a` and `b` (entries with any nonzero
integer exponents, per the data-model invariant), the quotient and remainder
of `Factors.div` satisfy `multiply(quotient, b) == multiply(a, remainder)`. -/
theorem factors_div_identity {α : Type} [DecidableEq α] (a b : Factors α)
    (ha : NodupKeys a) (hb : NodupKeys b)
    (hza : ∀ p ∈ a, p.2 ≠ 0) (hzb : ∀ p ∈ b, p.2 ≠ 0) :
    feq (Factors.mul (Factors.quo a b) b)
      (Factors.mul a (Factors.rem a b)) := by
  intro f
  have hqn : NodupKeys (Factors.quo a b) := (nodupKeys_div a b ha).1
  have hrn : NodupKeys (Factors.rem a b) := (nodupKeys_div a b ha).2
  rcases haf : dget a f with _ | e1 <;> rcases hbf : dget b f with _ | e2
  · have hd : (dget (Factors.div a b).1 f, dget (Factors.div a b).2 f) =
        (none, none) := by
      simp only [dget_div a b hb f, haf, hbf]
    have hq : dget (Factors.quo a b) f = none := congrArg Prod.fst hd
    have hr : dget (Factors.rem a b) f = none := congrArg Prod.snd hd
    simp only [dget_mul (Factors.quo a b) b hb f, hq, hbf,
      dget_mul a (Factors.rem a b) hrn f, haf, hr]
  · have hd : (dget (Factors.div a b).1 f, dget (Factors.div a b).2 f) =
        (none, some e2) := by
      simp only [dget_div a b hb f, haf, hbf]
    have hq : dget (Factors.quo a b) f = none := congrArg Prod.fst hd
    have hr : dget (Factors.rem a b) f = some e2 := congrArg Prod.snd hd
    simp only [dget_mul (Factors.quo a b) b hb f, hq, hbf,
      dget_mul a (Factors.rem a b) hrn f, haf, hr]
  · have hd : (dget (Factors.div a b).1 f, dget (Factors.div a b).2 f) =
        (some e1, none) := by
      simp only [dget_div a b hb f, haf, hbf]
    have hq : dget (Factors.quo a b) f = some e1 := congrArg Prod.fst hd
    have hr : dget (Factors.rem a b) f = none := congrArg Prod.snd hd
    simp only [dget_mul (Factors.quo a b) b hb f, hq, hbf,
      dget_mul a (Factors.rem a b) hrn f, haf, hr]
  · have he1 : e1 ≠ 0 := hza _ (mem_of_dget a f e1 haf)
    have he2 : e2 ≠ 0 := hzb _ (mem_of_dget b f e2 hbf)
    rcases lt_trichotomy (e1 - e2) 0 with hlt | heq | hgt
    · have hd : (dget (Factors.div a b).1 f, dget (Factors.div a b).2 f) =
          (none, some (-(e1 - e2))) := by
        simp only [dget_div a b hb f, haf, hbf,
          if_neg (show ¬ (e1 - e2 = 0) from by omega),
          if_neg (show ¬ (0 < e1 - e2) from by omega)]
      have hq : dget (Factors.quo a b) f = none := congrArg Prod.fst hd
      have hr : dget (Factors.rem a b) f = some (-(e1 - e2)) :=
        congrArg Prod.snd hd
      simp only [dget_mul (Factors.quo a b) b hb f, hq, hbf,
        dget_mul a (Factors.rem a b) hrn f, haf, hr,
        if_neg (show ¬ (e1 + -(e1 - e2) = 0) from by omega)]
      rw [show e1 + -(e1 - e2) = e2 from by omega]
    · have hd : (dget (Factors.div a b).1 f, dget (Factors.div a b).2 f) =
          (none, none) := by
        simp only [dget_div a b hb f, haf, hbf,
          if_pos (show e1 - e2 = 0 from heq)]
      have hq : dget (Factors.quo a b) f = none := congrArg Prod.fst hd
      have hr : dget (Factors.rem a b) f = none := congrArg Prod.snd hd
      simp only [dget_mul (Factors.quo a b) b hb f, hq, hbf,
        dget_mul a (Factors.rem a b) hrn f, haf, hr]
      rw [show e2 = e1 from by omega]
    · have hd : (dget (Factors.div a b).1 f, dget (Factors.div a b).2 f) =
          (some (e1 - e2), none) := by
        simp only [dget_div a b hb f, haf, hbf,
          if_neg (show ¬ (e1 - e2 = 0) from by omega),
          if_pos (show 0 < e1 - e2 from hgt)]
      have hq : dget (Factors.quo a b) f = some (e1 - e2) :=
        congrArg Prod.fst hd
      have hr : dget (Factors.rem a b) f = none := congrArg Prod.snd hd
      simp only [dget_mul (Factors.quo a b) b hb f, hq, hbf,
        dget_mul a (Factors.rem a b) hrn f, haf, hr,
        if_neg (show ¬ (e1 - e2 + e2 = 0) from by omega)]
      rw [show e1 - e2 + e2 = e1 from by omega]

/-- Witness for C10 at a concrete input with mixed-sign exponents. -/
theorem factors_div_identity_witness :
    (NodupKeys ([(0, -2), (1, 1)] : Factors Nat) ∧
      NodupKeys ([(0, 1), (2, -1)] : Factors Nat) ∧
      (∀ p ∈ ([(0, -2), (1, 1)] : Factors Nat), p.2 ≠ 0) ∧
      (∀ p ∈ ([(0, 1), (2, -1)] : Factors Nat), p.2 ≠ 0)) ∧
    feq (Factors.mul (Factors.quo [(0, -2), (1, 1)] [(0, 1), (2, -1)])
        [(0, 1), (2, -1)])
      (Factors.mul ([(0, -2), (1, 1)] : Factors Nat)
        (Factors.rem [(0, -2), (1, 1)] [(0, 1), (2, -1)])) :=
  ⟨⟨by decide, by decide, by decide, by decide⟩,
    factors_div_identity _ _ (by decide) (by decide) (by decide) (by decide)⟩

/-- C2 (amended): a factor present in `b` but not in `a` is absent from the
quotient of `Factors.div a b` but appears in the remainder with its full
exponent from `b` (it is not absent from the remainder, as originally
claimed). -/
theorem factors_div_b_only {α : Type} [DecidableEq α] (a b : Factors α)
    (f : α) (e : Int) (hb : NodupKeys b) (hfa : dget a f = none)
    (hfb : (f, e) ∈ b) :
    dget (Factors.quo a b) f = none ∧ dget (Factors.rem a b) f = some e := by
  have hbf : dget b f = some e := dget_of_mem b hb hfb
  have hd : (dget (Factors.div a b).1 f, dget (Factors.div a b).2 f) =
      (none, some e) := by
    simp only [dget_div a b hb f, hfa, hbf]
  exact ⟨congrArg Prod.fst hd, congrArg Prod.snd hd⟩

/-- Witness for the amended C2 at a concrete input. -/
theorem factors_div_b_only_witness :
    (NodupKeys ([(0, 2), (1, 1)] : Factors Nat) ∧
      dget ([(1, 3)] : Factors Nat) 0 = none ∧
      ((0, 2) ∈ ([(0, 2), (1, 1)] : Factors Nat))) ∧
    (dget (Factors.quo [(1, 3)] [(0, 2), (1, 1)]) 0 = none ∧
      dget (Factors.rem ([(1, 3)] : Factors Nat) [(0, 2), (1, 1)]) 0 = some 2) :=
  ⟨⟨by decide, by decide, by decide⟩,
    factors_div_b_only _ _ 0 2 (by decide) (by decide) (by decide)⟩

/-- C2 counterexample: with `a = {}` and `b = {x0: 2}`, the factor `x0` occurs
in `b` and not in `a`, yet the remainder returned by `divide(a, b)` contains
it with its full exponent — it is not absent from the remainder. -/
theorem factors_div_b_only_cex :
    dget ([] : Factors Nat) 0 = none ∧
      dget (Factors.rem ([] : Factors Nat) [(0, 2)]) 0 = some 2 := by
  exact ⟨rfl, by decide⟩

end MultisetAlgebraClaims

section TermModel

variable {α : Type} [DecidableEq α]

/-- Value of sympy `Rational.gcd`: `Rational(igcd(p1, p2), ilcm(q1, q2))`. -/
def ratGcd (a b : Rat) : Rat :=
  (Int.gcd a.num b.num : Rat) / (Nat.lcm a.den b.den : Rat)

/-- Value of sympy `Rational.lcm`: `Rational(p1*p2 // igcd(p1, p2), igcd(q1, q2))`. -/
def ratLcm (a b : Rat) : Rat :=
  ((a.num * b.num / Int.gcd a.num b.num : Int) : Rat) / (Nat.gcd a.den b.den : Rat)

/-- The Python `Term` class (exprtools.py lines 231-339): a coefficient from
the exact numeric domain together with numerator and denominator factor
dicts. -/
structure Term (α : Type) where
  coeff : Rat
  numer : Factors α
  denom : Factors α

/-- `Term.mul` (lines 280-287): multiply coefficients and the two dict pairs,
then cross-cancel via `Factors.normal`. -/
def Term.mul (t u : Term α) : Term α :=
  let numer := Factors.mul t.numer u.numer
  let denom := Factors.mul t.denom u.denom
  let nd := Factors.normal numer denom
  ⟨t.coeff * u.coeff, nd.1, nd.2⟩

/-- `Term.inv` (lines 289-290): reciprocal coefficient, dicts swapped. -/
def Term.inv (t : Term α) : Term α :=
  ⟨1 / t.coeff, t.denom, t.numer⟩

/-- `Term.quo` (lines 292-293): multiply by the inverse. -/
def Term.quo (t u : Term α) : Term α :=
  Term.mul t (Term.inv u)

/-- `Term.pow` (lines 295-301): a negative exponent inverts first and recurses
on the negation (unrolled here since the recursive call is non-negative);
`Factors.pow` is applied to both dicts. -/
def Term.pow (t : Term α) (n : Int) : Except String (Term α) :=
  let u := if n < 0 then Term.inv t else t
  let m : Int := if n < 0 then -n else n
  match Factors.pow u.numer (m : Rat), Factors.pow u.denom (m : Rat) with
  | Except.ok nu, Except.ok de => Except.ok ⟨u.coeff ^ m, nu, de⟩
  | Except.error msg, _ => Except.error msg
  | _, Except.error msg => Except.error msg

/-- `Term.gcd` (lines 303-306): numeric gcd on coefficients, multiset gcd on
numerators and denominators independently — no normalization. -/
def Term.gcd (t u : Term α) : Term α :=
  ⟨ratGcd t.coeff u.coeff, Factors.gcd t.numer u.numer,
    Factors.gcd t.denom u.denom⟩

/-- `Term.lcm` (lines 308-311): numeric lcm on coefficients, multiset lcm on
numerators and denominators independently — no normalization. -/
def Term.lcm (t u : Term α) : Term α :=
  ⟨ratLcm t.coeff u.coeff, Factors.lcm t.numer u.numer,
    Factors.lcm t.denom u.denom⟩

end TermModel

section PowClaim

variable {α : Type} [DecidableEq α]

/-- C6: `Factors.pow a n` raises a domain error exactly when `n` is not a
non-negative integer (never coercing silently); `n = 0` yields the empty
multiset, and an integer `n ≥ 1` scales every exponent by `n`. -/
theorem factors_pow_spec {α : Type} [DecidableEq α] (a : Factors α) (n : Rat) :
    ((∃ msg, Factors.pow a n = Except.error msg) ↔ ¬ (n.den = 1 ∧ 0 ≤ n.num))
    ∧ (n = 0 → Factors.pow a n = Except.ok [])
    ∧ (∀ m : Int, 1 ≤ m → n = (m : Rat) →
        Factors.pow a n = Except.ok (a.map fun p => (p.1, p.2 * m))) := by
  refine ⟨⟨?_, ?_⟩, ?_, ?_⟩
  · rintro ⟨msg, hmsg⟩ hcond
    rw [Factors.pow, if_pos hcond] at hmsg
    cases hmsg
  · intro hcond
    refine ⟨"expected non-negative integer", ?_⟩
    rw [Factors.pow, if_neg hcond]
  · intro h0
    subst h0
    rw [Factors.pow, if_pos (by constructor <;> rfl)]
    rw [if_pos (show Rat.num 0 = 0 from rfl)]
  · intro m hm hn
    subst hn
    rw [Factors.pow,
      if_pos (by exact ⟨Rat.den_intCast m, by rw [Rat.num_intCast]; omega⟩)]
    rw [if_neg (by rw [Rat.num_intCast]; omega)]
    rw [show ((m : Rat).num : Int) = m from Rat.num_intCast m]

/-- Witness for C6: evaluation at a concrete dict with a fractional, a zero
and a positive integer exponent argument. -/
theorem factors_pow_spec_witness :
    ((∃ msg, Factors.pow ([(0, 2)] : Factors Nat) (3 / 2 : Rat) =
        Except.error msg) ↔ ¬ (((3 : Rat) / 2).den = 1 ∧ 0 ≤ ((3 : Rat) / 2).num))
    ∧ (Factors.pow ([(0, 2)] : Factors Nat) 0 = Except.ok [])
    ∧ (Factors.pow ([(0, 2)] : Factors Nat) ((3 : Int) : Rat) =
        Except.ok [(0, 6)]) := by
  refine ⟨(factors_pow_spec [(0, 2)] (3 / 2)).1, ?_, ?_⟩
  · exact (factors_pow_spec [(0, 2)] 0).2.1 rfl
  · rw [(factors_pow_spec ([(0, 2)] : Factors Nat) ((3 : Int) : Rat)).2.2 3
      (by omega) rfl]
    rfl

end PowClaim

section TermInit

variable {α : Type} [DecidableEq α]

/-- The data `Term.__init__` consumes from the expression collaborator: the
commutativity flag, the leading coefficient of `as_coeff_mul` (with any
content extracted from additive bases already folded in per lines 247-249),
and the `(base, integer exponent)` factor sequence after `decompose_power`. -/
structure CExpr (α : Type) where
  is_commutative : Bool
  coeff : Rat
  factors : List (α × Int)

/-- One iteration of the factor loop of `Term.__init__` (lines 244-254):
route the decomposed factor into the numerator dict when its exponent is
positive, into the denominator dict (negated) otherwise. -/
def Term.initStep (nd : Factors α × Factors α) (p : α × Int) :
    Factors α × Factors α :=
  if 0 < p.2 then (dset nd.1 p.1 p.2, nd.2)
  else (nd.1, dset nd.2 p.1 (-p.2))

/-- The `numer is None and denom is None` branch of `Term.__init__`
(lines 236-257): raise `NonCommutativeExpression` unless the expression is
commutative, then build the numerator/denominator dicts. -/
def Term.ofExpr (e : CExpr α) : Except String (Term α) :=
  if e.is_commutative = false then
    Except.error "commutative expression expected"
  else
    Except.ok ⟨e.coeff,
      (e.factors.foldl Term.initStep ([], [])).1,
      (e.factors.foldl Term.initStep ([], [])).2⟩

/-- `Term.__init__` with the optional explicit numerator/denominator: when
either is supplied the first argument becomes the coefficient directly and
no commutativity check is performed (lines 258-265). -/
def Term.init (term : CExpr α) (numer denom : Option (Factors α)) :
    Except String (Term α) :=
  match numer, denom with
  | none, none => Term.ofExpr term
  | n, d => Except.ok ⟨term.coeff, n.getD [], d.getD []⟩

/-- The Monomial-Term invariant: the multiset gcd of numerator and
denominator is the empty mapping. -/
def TermDisjoint (t : Term α) : Prop := Factors.gcd t.numer t.denom = []

instance termDisjointDecidable (t : Term α) : Decidable (TermDisjoint t) :=
  inferInstanceAs (Decidable (Factors.gcd t.numer t.denom = []))

theorem dset_ne_nil (d : Factors α) (k : α) (v : Int) : dset d k v ≠ [] := by
  unfold dset
  by_cases h : dget d k = none
  · rw [if_pos h]
    intro hh
    simpa using congrArg List.length hh
  · rw [if_neg h]
    cases d with
    | nil => simp [dget] at h
    | cons p t =>
      intro hh
      simpa [dsetAux] using congrArg List.length hh

theorem gcd_fold_nil (b : Factors α) (l : List (α × Int)) :
    ∀ acc : Factors α,
      (l.foldl (Factors.gcdStep b) acc = [] ↔
        acc = [] ∧ ∀ p ∈ l, dget b p.1 = none) := by
  induction l with
  | nil => intro acc; simp
  | cons p t ih =>
    intro acc
    rw [List.foldl_cons, ih]
    constructor
    · rintro ⟨h1, h2⟩
      unfold Factors.gcdStep at h1
      cases hb : dget b p.1 with
      | some e2 =>
        rw [hb] at h1
        exact absurd h1 (dset_ne_nil acc p.1 _)
      | none =>
        rw [hb] at h1
        refine ⟨h1, ?_⟩
        intro q hq
        rcases List.mem_cons.mp hq with h | h
        · rw [h]; exact hb
        · exact h2 q h
    · rintro ⟨h1, h2⟩
      have hb : dget b p.1 = none := h2 p (List.mem_cons_self p t)
      refine ⟨?_, fun q hq => h2 q (List.mem_cons_of_mem p hq)⟩
      unfold Factors.gcdStep
      rw [hb]
      exact h1

theorem gcd_eq_nil_iff (a b : Factors α) :
    Factors.gcd a b = [] ↔ ∀ p ∈ a, dget b p.1 = none := by
  rw [Factors.gcd, gcd_fold_nil]
  simp

theorem dget_ne_none_of_mem (d : Factors α) (p : α × Int) (hp : p ∈ d) :
    dget d p.1 ≠ none := fun h =>
  (dget_none_iff d p.1).mp h (List.mem_map.mpr ⟨p, hp, rfl⟩)

theorem termDisjoint_iff (t : Term α) :
    TermDisjoint t ↔
      ∀ f : α, dget t.numer f = none ∨ dget t.denom f = none := by
  unfold TermDisjoint
  rw [gcd_eq_nil_iff]
  constructor
  · intro h f
    cases hn : dget t.numer f with
    | none => exact Or.inl rfl
    | some e => exact Or.inr (h (f, e) (mem_of_dget _ _ _ hn))
  · intro h p hp
    rcases h p.1 with h1 | h1
    · exact absurd h1 (dget_ne_none_of_mem t.numer p hp)
    · exact h1

theorem normal_disjoint (a b : Factors α) (ha : NodupKeys a) (f : α) :
    dget (Factors.normal a b).1 f = none ∨
      dget (Factors.normal a b).2 f = none := by
  have hd := dget_normal a b ha f
  rcases haf : dget a f with _ | se <;> rcases hbf : dget b f with _ | be <;>
    rw [haf, hbf] at hd
  · exact Or.inl (congrArg Prod.fst hd)
  · exact Or.inl (congrArg Prod.fst hd)
  · exact Or.inr (congrArg Prod.snd hd)
  · by_cases h0 : se - be = 0
    · simp only [if_pos h0] at hd
      exact Or.inl (congrArg Prod.fst hd)
    · by_cases h1 : 0 < se - be
      · simp only [if_neg h0, if_pos h1] at hd
        exact Or.inr (congrArg Prod.snd hd)
      · simp only [if_neg h0, if_neg h1] at hd
        exact Or.inl (congrArg Prod.fst hd)

theorem term_mul_disjoint (t u : Term α) (hn : NodupKeys t.numer) :
    TermDisjoint (Term.mul t u) := by
  rw [termDisjoint_iff]
  intro f
  exact normal_disjoint (Factors.mul t.numer u.numer)
    (Factors.mul t.denom u.denom) (nodupKeys_mul _ _ hn) f

theorem term_inv_disjoint (t : Term α) (h : TermDisjoint t) :
    TermDisjoint (Term.inv t) := by
  rw [termDisjoint_iff] at h ⊢
  intro f
  exact (h f).symm

theorem dget_scale (d : Factors α) (c : Int) (f : α) :
    dget (d.map fun p => (p.1, p.2 * c)) f =
      (dget d f).map (fun e => e * c) := by
  induction d with
  | nil => rfl
  | cons p t ih =>
    by_cases hp : p.1 = f
    · simp [dget, hp]
    · simp [dget, hp, ih]

theorem term_pow_disjoint (t : Term α) (n : Int) (h : TermDisjoint t) :
    ∃ u, Term.pow t n = Except.ok u ∧ TermDisjoint u := by
  have key : ∀ (v : Term α) (m : Int), 0 ≤ m → TermDisjoint v →
      ∃ u, (match Factors.pow v.numer (m : Rat), Factors.pow v.denom (m : Rat) with
        | Except.ok nu, Except.ok de =>
            Except.ok (⟨v.coeff ^ m, nu, de⟩ : Term α)
        | Except.error msg, _ => Except.error msg
        | _, Except.error msg => Except.error msg) = Except.ok u ∧
        TermDisjoint u := by
    intro v m hm0 hv
    have hok : ∀ d : Factors α, Factors.pow d (m : Rat) =
        Except.ok (if m = 0 then [] else d.map fun p => (p.1, p.2 * m)) := by
      intro d
      rw [Factors.pow,
        if_pos (show ((m : Rat)).den = 1 ∧ 0 ≤ ((m : Rat)).num from
          ⟨Rat.den_intCast m, by rw [Rat.num_intCast]; exact hm0⟩)]
      rw [show ((m : Rat)).num = m from Rat.num_intCast m]
    rw [hok v.numer, hok v.denom]
    by_cases hz : m = 0
    · refine ⟨⟨v.coeff ^ m, [], []⟩, ?_, ?_⟩
      · rw [if_pos hz, if_pos hz]
      · rfl
    · rw [if_neg hz, if_neg hz]
      refine ⟨⟨v.coeff ^ m, _, _⟩, rfl, ?_⟩
      rw [termDisjoint_iff] at hv ⊢
      intro f
      rcases hv f with h1 | h1
      · refine Or.inl ?_
        show dget (v.numer.map fun p => (p.1, p.2 * m)) f = none
        rw [dget_scale, h1]
        rfl
      · refine Or.inr ?_
        show dget (v.denom.map fun p => (p.1, p.2 * m)) f = none
        rw [dget_scale, h1]
        rfl
  by_cases hneg : n < 0
  · have hkey := key (Term.inv t) (-n) (by omega) (term_inv_disjoint t h)
    simpa [Term.pow, hneg] using hkey
  · have hkey := key t n (by omega) h
    simpa [Term.pow, hneg] using hkey

theorem term_gcd_disjoint (t u : Term α) (hn : NodupKeys t.numer)
    (hd : NodupKeys t.denom) (ht : TermDisjoint t) :
    TermDisjoint (Term.gcd t u) := by
  rw [termDisjoint_iff] at ht ⊢
  intro f
  rcases ht f with h | h
  · left
    show dget (Factors.gcd t.numer u.numer) f = none
    rw [dget_gcd t.numer u.numer hn f, h]
  · right
    show dget (Factors.gcd t.denom u.denom) f = none
    rw [dget_gcd t.denom u.denom hd f, h]

theorem ofExpr_fold_disjoint (l : List (α × Int)) :
    ∀ nd : Factors α × Factors α,
      (l.map Prod.fst).Nodup →
      (∀ p ∈ l, dget nd.1 p.1 = none ∧ dget nd.2 p.1 = none) →
      (∀ f, dget nd.1 f = none ∨ dget nd.2 f = none) →
      ∀ f, dget (l.foldl Term.initStep nd).1 f = none ∨
        dget (l.foldl Term.initStep nd).2 f = none := by
  induction l with
  | nil =>
    intro nd _ _ hdisj f
    exact hdisj f
  | cons p t ih =>
    intro nd hnodup hfresh hdisj f
    simp only [List.map_cons, List.nodup_cons] at hnodup
    rw [List.foldl_cons]
    refine ih (Term.initStep nd p) hnodup.2 ?_ ?_ f
    · intro q hq
      have hqp : q.1 ≠ p.1 := by
        intro hh
        exact hnodup.1 (hh ▸ List.mem_map.mpr ⟨q, hq, rfl⟩)
      unfold Term.initStep
      by_cases hpos : 0 < p.2
      · rw [if_pos hpos]
        exact ⟨by rw [dget_dset_ne _ _ _ _ hqp]
                  exact (hfresh q (List.mem_cons_of_mem p hq)).1,
          (hfresh q (List.mem_cons_of_mem p hq)).2⟩
      · rw [if_neg hpos]
        exact ⟨(hfresh q (List.mem_cons_of_mem p hq)).1,
          by rw [dget_dset_ne _ _ _ _ hqp]
             exact (hfresh q (List.mem_cons_of_mem p hq)).2⟩
    · intro g
      unfold Term.initStep
      by_cases hg : g = p.1
      · subst hg
        by_cases hpos : 0 < p.2
        · rw [if_pos hpos]
          exact Or.inr (hfresh p (List.mem_cons_self p t)).2
        · rw [if_neg hpos]
          exact Or.inl (hfresh p (List.mem_cons_self p t)).1
      · by_cases hpos : 0 < p.2
        · rw [if_pos hpos]
          rcases hdisj g with h1 | h1
          · exact Or.inl (by rw [dget_dset_ne _ _ _ _ hg]; exact h1)
          · exact Or.inr h1
        · rw [if_neg hpos]
          rcases hdisj g with h1 | h1
          · exact Or.inl h1
          · exact Or.inr (by rw [dget_dset_ne _ _ _ _ hg]; exact h1)

/-- Under pairwise-distinct decomposed keys the construction loop yields
disjoint dicts.  Real inputs can violate the distinctness: the `primitive()`
fold of lines 247-249 can send two different bases to the same key — see
`Term.build` and the negative conjunct of `term_ops_preserve_disjoint`. -/
theorem term_ofExpr_disjoint (e : CExpr α)
    (hnd : (e.factors.map Prod.fst).Nodup) :
    ∀ t, Term.ofExpr e = Except.ok t → TermDisjoint t := by
  intro t h
  unfold Term.ofExpr at h
  by_cases hc : e.is_commutative = false
  · rw [if_pos hc] at h
    cases h
  · rw [if_neg hc] at h
    injection h with h
    subst h
    rw [termDisjoint_iff]
    exact ofExpr_fold_disjoint e.factors ([], []) hnd
      (fun p _ => ⟨rfl, rfl⟩) (fun f => Or.inl rfl)

/-- One multiplicative factor of an addend as `Term.__init__` sees it
(lines 244-249): the `(base, exp)` pair from `decompose_power`, together
with the base's `is_Add` flag and, for an additive base, the
`(content, primitive part)` split that `primitive()` returns — the base is
`cont * key` then; for a non-additive base `key` is the base itself and
`cont` is unused. -/
structure DFactor (α : Type) where
  isAdd : Bool
  cont : Rat
  key : α
  exp : Int

/-- One iteration of the factor loop of `Term.__init__` (lines 244-254):
fold an additive base's content into the coefficient (`coeff *= cont**exp`),
then store the exponent with the plain dict assignments
`numer[base] = exp` / `denom[base] = -exp` — an assignment, not an
accumulation, so a base already present is overwritten. -/
def Term.buildStep (st : Rat × Factors α × Factors α) (f : DFactor α) :
    Rat × Factors α × Factors α :=
  let coeff := if f.isAdd then st.1 * f.cont ^ f.exp else st.1
  if 0 < f.exp then (coeff, dset st.2.1 f.key f.exp, st.2.2)
  else (coeff, st.2.1, dset st.2.2 f.key (-f.exp))

/-- `Term.__init__` on a commutative addend, from its `as_coeff_mul`
coefficient and decomposed factor sequence (lines 241-255); line 354's
`terms = map(Term, terms)` builds every addend's Term this way. -/
def Term.build (coeff : Rat) (factors : List (DFactor α)) : Term α :=
  ⟨(factors.foldl Term.buildStep (coeff, [], [])).1,
    (factors.foldl Term.buildStep (coeff, [], [])).2.1,
    (factors.foldl Term.buildStep (coeff, [], [])).2.2⟩

/-- The value of a decomposed factor's base under an assignment of rational
values to base keys: `cont * key` for an additive base (the `primitive()`
contract `base == cont * primitive_part`), the key itself otherwise. -/
def DFactor.baseVal (ρ : α → Rat) (f : DFactor α) : Rat :=
  if f.isAdd then f.cont * ρ f.key else ρ f.key

/-- The value of an addend `coeff * prod(base_i ** exp_i)`. -/
def addendVal (ρ : α → Rat) (a : Rat × List (DFactor α)) : Rat :=
  a.1 * (a.2.map fun f => DFactor.baseVal ρ f ^ f.exp).prod

end TermInit

section TermClaims

/-- C3 (amended): `mul`, `inv`, `quo`, `pow`, and `gcd` all return Terms
whose numerator and denominator multisets share no common factor (given
dict-valid inputs satisfying the invariant).  Construction does not
establish the invariant in general: the `primitive()` fold of lines 247-249
can send two distinct factor bases to the same key, landing it in both
dicts — the last conjunct runs `Term.__init__` on `(x+1)/(2*x+2)`, whose
factors `(x+1)` and `(2*x+2)**(-1)` both fold to the key `x+1` (key `0`),
giving numerator `{x+1: 1}` and denominator `{x+1: 1}`.  `lcm`, which
performs no normalization, does not preserve the invariant either — see the
counterexample. -/
theorem term_ops_preserve_disjoint {α : Type} [DecidableEq α] :
    (∀ t u : Term α, NodupKeys t.numer → TermDisjoint (Term.mul t u))
    ∧ (∀ t : Term α, TermDisjoint t → TermDisjoint (Term.inv t))
    ∧ (∀ t u : Term α, NodupKeys t.numer → TermDisjoint (Term.quo t u))
    ∧ (∀ (t : Term α) (n : Int), TermDisjoint t →
        ∃ u, Term.pow t n = Except.ok u ∧ TermDisjoint u)
    ∧ (∀ t u : Term α, NodupKeys t.numer → NodupKeys t.denom →
        TermDisjoint t → TermDisjoint (Term.gcd t u))
    ∧ ¬ TermDisjoint
        (Term.build 1 ([⟨true, 1, 0, 1⟩, ⟨true, 2, 0, -1⟩] :
          List (DFactor Nat))) :=
  ⟨term_mul_disjoint, term_inv_disjoint,
    fun t u hn => term_mul_disjoint t (Term.inv u) hn,
    term_pow_disjoint, term_gcd_disjoint, by decide⟩

/-- Witness for the amended C3 at concrete inputs. -/
theorem term_ops_preserve_disjoint_witness :
    NodupKeys ([(0, 1), (1, 2)] : Factors Nat) ∧
    TermDisjoint (Term.mul (⟨1, [(0, 1), (1, 2)], [(2, 1)]⟩ : Term Nat)
      ⟨1, [(2, 1)], [(1, 1)]⟩) :=
  ⟨by decide, (term_ops_preserve_disjoint (α := Nat)).1
      ⟨1, [(0, 1), (1, 2)], [(2, 1)]⟩ ⟨1, [(2, 1)], [(1, 1)]⟩ (by decide)⟩

/-- C3 counterexample: the Terms `x0` and `1/x0` both satisfy the invariant,
but their `lcm` has numerator `{x0: 1}` and denominator `{x0: 1}`: the
factor `x0` is shared, so `lcm` does not return a Term with disjoint
numerator and denominator. -/
theorem term_lcm_not_disjoint_cex :
    TermDisjoint (⟨1, [(0, 1)], []⟩ : Term Nat) ∧
    TermDisjoint (⟨1, [], [(0, 1)]⟩ : Term Nat) ∧
    ¬ TermDisjoint
        (Term.lcm (⟨1, [(0, 1)], []⟩ : Term Nat) ⟨1, [], [(0, 1)]⟩) := by
  refine ⟨by decide, by decide, by decide⟩

/-- C7: `Term(expr)` (no explicit numerator/denominator) raises the
domain error exactly when the expression is noncommutative; when an explicit
numerator or denominator is supplied, construction always succeeds with no
commutativity check. -/
theorem term_init_commutativity {α : Type} [DecidableEq α] (e : CExpr α) :
    ((∃ msg, Term.init e none none = Except.error msg) ↔
      e.is_commutative = false)
    ∧ (∀ numer denom : Option (Factors α), numer ≠ none ∨ denom ≠ none →
        ∃ t, Term.init e numer denom = Except.ok t) := by
  constructor
  · constructor
    · rintro ⟨msg, hmsg⟩
      by_cases hc : e.is_commutative = false
      · exact hc
      · rw [show Term.init e none none = Term.ofExpr e from rfl,
          Term.ofExpr, if_neg hc] at hmsg
        cases hmsg
    · intro hc
      refine ⟨"commutative expression expected", ?_⟩
      rw [show Term.init e none none = Term.ofExpr e from rfl,
        Term.ofExpr, if_pos hc]
  · intro numer denom hnd
    match numer, denom with
    | some n, d => exact ⟨_, rfl⟩
    | none, some d => exact ⟨_, rfl⟩
    | none, none =>
      rcases hnd with h | h
      · exact absurd rfl h
      · exact absurd rfl h

/-- Witness for C7: a noncommutative expression is rejected by `Term(expr)`
but accepted when an explicit numerator is supplied. -/
theorem term_init_commutativity_witness :
    ((∃ msg, Term.init (⟨false, 1, [(0, 1)]⟩ : CExpr Nat) none none =
        Except.error msg) ↔
      (⟨false, 1, [(0, 1)]⟩ : CExpr Nat).is_commutative = false)
    ∧ (∃ t, Term.init (⟨false, 1, [(0, 1)]⟩ : CExpr Nat)
        (some [(0, 1)]) none = Except.ok t) :=
  ⟨(term_init_commutativity ⟨false, 1, [(0, 1)]⟩).1,
    (term_init_commutativity ⟨false, 1, [(0, 1)]⟩).2 (some [(0, 1)]) none
      (Or.inl (by simp))⟩

end TermClaims

section EvalLayer

variable {α : Type} [DecidableEq α]

/-- Value of `Factors.as_expr` under an assignment `ρ` of the factor keys:
the product of `ρ f ^ e` over the dict entries. -/
def evalF (ρ : α → Rat) (d : Factors α) : Rat :=
  (d.map fun p => ρ p.1 ^ p.2).prod

/-- Value of `Term.as_expr`: `coeff * numer / denom`. -/
def evalT (ρ : α → Rat) (t : Term α) : Rat :=
  t.coeff * evalF ρ t.numer / evalF ρ t.denom

theorem evalF_nil (ρ : α → Rat) : evalF ρ ([] : Factors α) = 1 := rfl

theorem evalF_cons (ρ : α → Rat) (p : α × Int) (t : Factors α) :
    evalF ρ (p :: t) = ρ p.1 ^ p.2 * evalF ρ t := by
  simp [evalF]

theorem evalF_ne_zero (ρ : α → Rat) (hρ : ∀ x, ρ x ≠ 0) (d : Factors α) :
    evalF ρ d ≠ 0 := by
  induction d with
  | nil => norm_num [evalF]
  | cons p t ih =>
    rw [evalF_cons]
    exact mul_ne_zero (zpow_ne_zero _ (hρ p.1)) ih

theorem evalF_ddel (ρ : α → Rat) (d : Factors α) (f : α) (e0 : Int)
    (hd : NodupKeys d) (h : dget d f = some e0) :
    evalF ρ d = evalF ρ (ddel d f) * ρ f ^ e0 := by
  induction d with
  | nil => simp [dget] at h
  | cons p t ih =>
    simp only [NodupKeys, List.map_cons, List.nodup_cons] at hd
    by_cases hp : p.1 = f
    · rw [show dget (p :: t) f = some p.2 from by simp [dget, hp]] at h
      injection h with h
      have ht : dget t f = none := by
        rw [dget_none_iff]
        exact hp ▸ hd.1
      rw [show ddel (p :: t) f = ddel t f from by simp [ddel, hp],
        ddel_of_none t f ht, evalF_cons, hp, h, mul_comm]
    · rw [dget_cons_ne hp] at h
      rw [show ddel (p :: t) f = p :: ddel t f from by simp [ddel, hp],
        evalF_cons, evalF_cons, ih hd.2 h, mul_assoc]

theorem dsetAux_of_none (d : Factors α) (k : α) (v : Int)
    (h : dget d k = none) : dsetAux d k v = d := by
  induction d with
  | nil => rfl
  | cons p t ih =>
    by_cases hp : p.1 = k
    · simp [dget, hp] at h
    · rw [dget_cons_ne hp] at h
      simp only [dsetAux, List.map_cons, if_neg hp]
      exact congrArg (List.cons p) (ih h)

theorem evalF_dset_none (ρ : α → Rat) (d : Factors α) (f : α) (v : Int)
    (h : dget d f = none) :
    evalF ρ (dset d f v) = evalF ρ d * ρ f ^ v := by
  rw [dset, if_pos h]
  simp [evalF]

theorem evalF_dset_some (ρ : α → Rat) (d : Factors α) (f : α) (v e0 : Int)
    (hd : NodupKeys d) (h : dget d f = some e0) :
    evalF ρ (dset d f v) * ρ f ^ e0 = evalF ρ d * ρ f ^ v := by
  rw [dset, if_neg (by rw [h]; simp)]
  induction d with
  | nil => simp [dget] at h
  | cons p t ih =>
    simp only [NodupKeys, List.map_cons, List.nodup_cons] at hd
    by_cases hp : p.1 = f
    · rw [show dget (p :: t) f = some p.2 from by simp [dget, hp]] at h
      injection h with h
      have ht : dget t f = none := by
        rw [dget_none_iff]
        exact hp ▸ hd.1
      show evalF ρ ((if p.1 = f then (f, v) else p) :: dsetAux t f v) *
          ρ f ^ e0 = _
      rw [if_pos hp, dsetAux_of_none t f v ht, evalF_cons, evalF_cons, hp, h]
      ring
    · rw [dget_cons_ne hp] at h
      show evalF ρ ((if p.1 = f then (f, v) else p) :: dsetAux t f v) *
          ρ f ^ e0 = _
      rw [if_neg hp, evalF_cons, evalF_cons, mul_assoc, mul_assoc,
        ih hd.2 h]

theorem mulStep_eval (ρ : α → Rat) (hρ : ∀ x, ρ x ≠ 0) (acc : Factors α)
    (p : α × Int) (hacc : NodupKeys acc) :
    evalF ρ (Factors.mulStep acc p) = evalF ρ acc * ρ p.1 ^ p.2 := by
  unfold Factors.mulStep
  cases hs : dget acc p.1 with
  | some e0 =>
    by_cases h0 : e0 + p.2 = 0
    · simp only [if_pos h0]
      have h1 := evalF_ddel ρ acc p.1 e0 hacc hs
      have h2 : ρ p.1 ^ e0 * ρ p.1 ^ p.2 = 1 := by
        rw [← zpow_add₀ (hρ p.1), show e0 + p.2 = 0 from h0, zpow_zero]
      calc evalF ρ (ddel acc p.1)
          = evalF ρ (ddel acc p.1) * (ρ p.1 ^ e0 * ρ p.1 ^ p.2) := by
            rw [h2, mul_one]
        _ = (evalF ρ (ddel acc p.1) * ρ p.1 ^ e0) * ρ p.1 ^ p.2 := by ring
        _ = evalF ρ acc * ρ p.1 ^ p.2 := by rw [← h1]
    · simp only [if_neg h0]
      have h1 := evalF_dset_some ρ acc p.1 (e0 + p.2) e0 hacc hs
      have hz := zpow_ne_zero e0 (hρ p.1)
      apply mul_right_cancel₀ hz
      rw [h1, zpow_add₀ (hρ p.1)]
      ring
  | none => exact evalF_dset_none ρ acc p.1 p.2 hs

theorem mul_fold_eval (ρ : α → Rat) (hρ : ∀ x, ρ x ≠ 0) (l : List (α × Int)) :
    ∀ acc : Factors α, NodupKeys acc →
      evalF ρ (l.foldl Factors.mulStep acc) = evalF ρ acc * evalF ρ l := by
  induction l with
  | nil =>
    intro acc _
    simp [evalF]
  | cons p t ih =>
    intro acc hacc
    rw [List.foldl_cons, ih _ (nodupKeys_mulStep acc p hacc),
      mulStep_eval ρ hρ acc p hacc, evalF_cons]
    ring

theorem evalF_mul (ρ : α → Rat) (hρ : ∀ x, ρ x ≠ 0) (a b : Factors α)
    (ha : NodupKeys a) :
    evalF ρ (Factors.mul a b) = evalF ρ a * evalF ρ b :=
  mul_fold_eval ρ hρ b a ha

theorem divStep_eval (ρ : α → Rat) (hρ : ∀ x, ρ x ≠ 0)
    (s : Factors α × Factors α) (p : α × Int) (hq : NodupKeys s.1)
    (hfr : dget s.2 p.1 = none) :
    evalF ρ (Factors.divStep s p).1 * ρ p.1 ^ p.2 * evalF ρ s.2 =
      evalF ρ s.1 * evalF ρ (Factors.divStep s p).2 := by
  unfold Factors.divStep
  cases hs : dget s.1 p.1 with
  | some e0 =>
    by_cases h0 : e0 - p.2 = 0
    · simp only [if_pos h0]
      have h1 := evalF_ddel ρ s.1 p.1 e0 hq hs
      rw [h1, show p.2 = e0 from by omega]
    · by_cases h2 : 0 < e0 - p.2
      · simp only [if_neg h0, if_pos h2]
        have h1 := evalF_dset_some ρ s.1 p.1 (e0 - p.2) e0 hq hs
        have hz := zpow_ne_zero e0 (hρ p.1)
        apply mul_right_cancel₀ hz
        calc evalF ρ (dset s.1 p.1 (e0 - p.2)) * ρ p.1 ^ p.2 * evalF ρ s.2 *
            ρ p.1 ^ e0
            = (evalF ρ (dset s.1 p.1 (e0 - p.2)) * ρ p.1 ^ e0) *
              (ρ p.1 ^ p.2 * evalF ρ s.2) := by ring
          _ = (evalF ρ s.1 * ρ p.1 ^ (e0 - p.2)) *
              (ρ p.1 ^ p.2 * evalF ρ s.2) := by rw [h1]
          _ = evalF ρ s.1 * (ρ p.1 ^ (e0 - p.2) * ρ p.1 ^ p.2) *
              evalF ρ s.2 := by ring
          _ = evalF ρ s.1 * ρ p.1 ^ e0 * evalF ρ s.2 := by
              rw [← zpow_add₀ (hρ p.1), show e0 - p.2 + p.2 = e0 from by omega]
          _ = evalF ρ s.1 * evalF ρ s.2 * ρ p.1 ^ e0 := by ring
      · simp only [if_neg h0, if_neg h2]
        have h1 := evalF_ddel ρ s.1 p.1 e0 hq hs
        have h3 := evalF_dset_none ρ s.2 p.1 (-(e0 - p.2)) hfr
        rw [h1, h3]
        have h4 : ρ p.1 ^ e0 * ρ p.1 ^ (-(e0 - p.2)) = ρ p.1 ^ p.2 := by
          rw [← zpow_add₀ (hρ p.1), show e0 + -(e0 - p.2) = p.2 from by omega]
        calc evalF ρ (ddel s.1 p.1) * ρ p.1 ^ p.2 * evalF ρ s.2
            = evalF ρ (ddel s.1 p.1) * (ρ p.1 ^ e0 * ρ p.1 ^ (-(e0 - p.2))) *
              evalF ρ s.2 := by rw [h4]
          _ = evalF ρ (ddel s.1 p.1) * ρ p.1 ^ e0 *
              (evalF ρ s.2 * ρ p.1 ^ (-(e0 - p.2))) := by ring
  | none =>
    have h3 := evalF_dset_none ρ s.2 p.1 p.2 hfr
    rw [h3]
    ring

theorem div_fold_eval (ρ : α → Rat) (hρ : ∀ x, ρ x ≠ 0) (l : List (α × Int)) :
    ∀ s : Factors α × Factors α, NodupKeys s.1 → NodupKeys s.2 →
      (l.map Prod.fst).Nodup → (∀ p ∈ l, dget s.2 p.1 = none) →
      evalF ρ (l.foldl Factors.divStep s).1 * evalF ρ l * evalF ρ s.2 =
        evalF ρ s.1 * evalF ρ (l.foldl Factors.divStep s).2 := by
  induction l with
  | nil =>
    intro s _ _ _ _
    show evalF ρ s.1 * 1 * evalF ρ s.2 = evalF ρ s.1 * evalF ρ s.2
    ring
  | cons p t ih =>
    intro s hq hr hnd hfr
    simp only [List.map_cons, List.nodup_cons] at hnd
    rw [List.foldl_cons, evalF_cons]
    have hfrp : dget s.2 p.1 = none := hfr p (List.mem_cons_self p t)
    have hB := divStep_eval ρ hρ s p hq hfrp
    have hq' : NodupKeys (Factors.divStep s p).1 :=
      (nodupKeys_divStep s p ⟨hq, hr⟩).1
    have hr' : NodupKeys (Factors.divStep s p).2 :=
      (nodupKeys_divStep s p ⟨hq, hr⟩).2
    have hfr' : ∀ q ∈ t, dget (Factors.divStep s p).2 q.1 = none := by
      intro q hqt
      have hne : q.1 ≠ p.1 := by
        intro hh
        exact hnd.1 (hh ▸ List.mem_map.mpr ⟨q, hqt, rfl⟩)
      have h5 : dget (Factors.divStep s p).2 q.1 = dget s.2 q.1 :=
        congrArg Prod.snd (dget_divStep_ne s p.1 p.2 q.1 hne)
      rw [h5]
      exact hfr q (List.mem_cons_of_mem p hqt)
    have hA := ih (Factors.divStep s p) hq' hr' hnd.2 hfr'
    have hs2 : evalF ρ (Factors.divStep s p).2 ≠ 0 := evalF_ne_zero ρ hρ _
    apply mul_right_cancel₀ hs2
    calc evalF ρ (t.foldl Factors.divStep (Factors.divStep s p)).1 *
        (ρ p.1 ^ p.2 * evalF ρ t) * evalF ρ s.2 *
        evalF ρ (Factors.divStep s p).2
        = (evalF ρ (t.foldl Factors.divStep (Factors.divStep s p)).1 *
            evalF ρ t * evalF ρ (Factors.divStep s p).2) *
          (ρ p.1 ^ p.2 * evalF ρ s.2) := by ring
      _ = (evalF ρ (Factors.divStep s p).1 *
            evalF ρ (t.foldl Factors.divStep (Factors.divStep s p)).2) *
          (ρ p.1 ^ p.2 * evalF ρ s.2) := by rw [hA]
      _ = evalF ρ (t.foldl Factors.divStep (Factors.divStep s p)).2 *
          (evalF ρ (Factors.divStep s p).1 * ρ p.1 ^ p.2 * evalF ρ s.2) := by
            ring
      _ = evalF ρ (t.foldl Factors.divStep (Factors.divStep s p)).2 *
          (evalF ρ s.1 * evalF ρ (Factors.divStep s p).2) := by rw [hB]
      _ = evalF ρ s.1 *
          evalF ρ (t.foldl Factors.divStep (Factors.divStep s p)).2 *
          evalF ρ (Factors.divStep s p).2 := by ring

theorem evalF_div (ρ : α → Rat) (hρ : ∀ x, ρ x ≠ 0) (a b : Factors α)
    (ha : NodupKeys a) (hb : NodupKeys b) :
    evalF ρ (Factors.div a b).1 * evalF ρ b =
      evalF ρ a * evalF ρ (Factors.div a b).2 := by
  have h := div_fold_eval ρ hρ b (a, ([] : Factors α)) ha nodupKeys_nil hb
    (fun p _ => rfl)
  have h2 : evalF ρ (Factors.div a b).1 * evalF ρ b * 1 =
      evalF ρ a * evalF ρ (Factors.div a b).2 := h
  rw [mul_one] at h2
  exact h2

theorem normalStep_eval (ρ : α → Rat) (hρ : ∀ x, ρ x ≠ 0) (b : Factors α)
    (s : Factors α × Factors α) (p : α × Int) (hsf : NodupKeys s.1)
    (hof : NodupKeys s.2) (hself : dget s.1 p.1 = some p.2)
    (hother : dget s.2 p.1 = dget b p.1) :
    evalF ρ (Factors.normalStep b s p).1 * evalF ρ s.2 =
      evalF ρ s.1 * evalF ρ (Factors.normalStep b s p).2 := by
  unfold Factors.normalStep
  cases hb : dget b p.1 with
  | none =>
    show evalF ρ s.1 * evalF ρ s.2 = evalF ρ s.1 * evalF ρ s.2
    rfl
  | some be =>
    have hofv : dget s.2 p.1 = some be := by rw [hother, hb]
    by_cases h0 : p.2 - be = 0
    · simp only [if_pos h0]
      have h1 := evalF_ddel ρ s.1 p.1 p.2 hsf hself
      have h2 := evalF_ddel ρ s.2 p.1 be hof hofv
      rw [h1, h2, show p.2 = be from by omega]
      ring
    · by_cases h2 : 0 < p.2 - be
      · simp only [if_neg h0, if_pos h2]
        have h1 := evalF_dset_some ρ s.1 p.1 (p.2 - be) p.2 hsf hself
        have h3 := evalF_ddel ρ s.2 p.1 be hof hofv
        have hz := zpow_ne_zero p.2 (hρ p.1)
        apply mul_right_cancel₀ hz
        calc evalF ρ (dset s.1 p.1 (p.2 - be)) * evalF ρ s.2 * ρ p.1 ^ p.2
            = (evalF ρ (dset s.1 p.1 (p.2 - be)) * ρ p.1 ^ p.2) *
              evalF ρ s.2 := by ring
          _ = (evalF ρ s.1 * ρ p.1 ^ (p.2 - be)) * evalF ρ s.2 := by rw [h1]
          _ = (evalF ρ s.1 * ρ p.1 ^ (p.2 - be)) *
              (evalF ρ (ddel s.2 p.1) * ρ p.1 ^ be) := by rw [← h3]
          _ = evalF ρ s.1 * evalF ρ (ddel s.2 p.1) *
              (ρ p.1 ^ (p.2 - be) * ρ p.1 ^ be) := by ring
          _ = evalF ρ s.1 * evalF ρ (ddel s.2 p.1) * ρ p.1 ^ p.2 := by
              rw [← zpow_add₀ (hρ p.1), show p.2 - be + be = p.2 from by omega]
      · simp only [if_neg h0, if_neg h2]
        have h1 := evalF_ddel ρ s.1 p.1 p.2 hsf hself
        have h3 := evalF_dset_some ρ s.2 p.1 (-(p.2 - be)) be hof hofv
        have hz := zpow_ne_zero be (hρ p.1)
        apply mul_right_cancel₀ hz
        calc evalF ρ (ddel s.1 p.1) * evalF ρ s.2 * ρ p.1 ^ be
            = evalF ρ (ddel s.1 p.1) * evalF ρ s.2 * ρ p.1 ^ be := rfl
          _ = evalF ρ s.1 *
              (evalF ρ (dset s.2 p.1 (-(p.2 - be))) * ρ p.1 ^ be) := by
              rw [h3, h1]
              have h4 : ρ p.1 ^ p.2 * ρ p.1 ^ (-(p.2 - be)) = ρ p.1 ^ be := by
                rw [← zpow_add₀ (hρ p.1),
                  show p.2 + -(p.2 - be) = be from by omega]
              calc evalF ρ (ddel s.1 p.1) * evalF ρ s.2 * ρ p.1 ^ be
                  = evalF ρ (ddel s.1 p.1) *
                    (evalF ρ s.2 * ρ p.1 ^ be) := by ring
                _ = evalF ρ (ddel s.1 p.1) *
                    (ρ p.1 ^ p.2 * (evalF ρ s.2 * ρ p.1 ^ (-(p.2 - be)))) := by
                    rw [show ρ p.1 ^ p.2 * (evalF ρ s.2 * ρ p.1 ^ (-(p.2 - be)))
                        = evalF ρ s.2 * (ρ p.1 ^ p.2 * ρ p.1 ^ (-(p.2 - be)))
                      from by ring, h4]
                _ = evalF ρ (ddel s.1 p.1) * ρ p.1 ^ p.2 *
                    (evalF ρ s.2 * ρ p.1 ^ (-(p.2 - be))) := by ring
          _ = evalF ρ s.1 *
              evalF ρ (dset s.2 p.1 (-(p.2 - be))) * ρ p.1 ^ be := by ring

theorem nodupKeys_normalStep (b : Factors α) (s : Factors α × Factors α)
    (p : α × Int) (hs : NodupKeys s.1 ∧ NodupKeys s.2) :
    NodupKeys (Factors.normalStep b s p).1 ∧
      NodupKeys (Factors.normalStep b s p).2 := by
  unfold Factors.normalStep
  cases dget b p.1 with
  | none => exact hs
  | some be =>
    by_cases h0 : p.2 - be = 0
    · simp only [if_pos h0]
      exact ⟨nodupKeys_ddel s.1 p.1 hs.1, nodupKeys_ddel s.2 p.1 hs.2⟩
    · by_cases h1 : 0 < p.2 - be
      · simp only [if_neg h0, if_pos h1]
        exact ⟨nodupKeys_dset s.1 p.1 _ hs.1, nodupKeys_ddel s.2 p.1 hs.2⟩
      · simp only [if_neg h0, if_neg h1]
        exact ⟨nodupKeys_ddel s.1 p.1 hs.1, nodupKeys_dset s.2 p.1 _ hs.2⟩

theorem normal_fold_eval (ρ : α → Rat) (hρ : ∀ x, ρ x ≠ 0) (b : Factors α)
    (l : List (α × Int)) :
    ∀ s : Factors α × Factors α, NodupKeys s.1 → NodupKeys s.2 →
      (l.map Prod.fst).Nodup →
      (∀ p ∈ l, dget s.1 p.1 = some p.2) →
      (∀ p ∈ l, dget s.2 p.1 = dget b p.1) →
      evalF ρ (l.foldl (Factors.normalStep b) s).1 * evalF ρ s.2 =
        evalF ρ s.1 * evalF ρ (l.foldl (Factors.normalStep b) s).2 := by
  induction l with
  | nil =>
    intro s _ _ _ _ _
    rfl
  | cons p t ih =>
    intro s hsf hof hnd hself hother
    simp only [List.map_cons, List.nodup_cons] at hnd
    rw [List.foldl_cons]
    have hB := normalStep_eval ρ hρ b s p hsf hof
      (hself p (List.mem_cons_self p t)) (hother p (List.mem_cons_self p t))
    have hsp := nodupKeys_normalStep b s p ⟨hsf, hof⟩
    have hne : ∀ q ∈ t, q.1 ≠ p.1 := by
      intro q hqt hh
      exact hnd.1 (hh ▸ List.mem_map.mpr ⟨q, hqt, rfl⟩)
    have hself' : ∀ q ∈ t, dget (Factors.normalStep b s p).1 q.1 = some q.2 := by
      intro q hqt
      have h5 : dget (Factors.normalStep b s p).1 q.1 = dget s.1 q.1 :=
        congrArg Prod.fst (dget_normalStep_ne b s p.1 p.2 q.1 (hne q hqt))
      rw [h5]
      exact hself q (List.mem_cons_of_mem p hqt)
    have hother' : ∀ q ∈ t,
        dget (Factors.normalStep b s p).2 q.1 = dget b q.1 := by
      intro q hqt
      have h5 : dget (Factors.normalStep b s p).2 q.1 = dget s.2 q.1 :=
        congrArg Prod.snd (dget_normalStep_ne b s p.1 p.2 q.1 (hne q hqt))
      rw [h5]
      exact hother q (List.mem_cons_of_mem p hqt)
    have hA := ih (Factors.normalStep b s p) hsp.1 hsp.2 hnd.2 hself' hother'
    have hs2 : evalF ρ (Factors.normalStep b s p).2 ≠ 0 := evalF_ne_zero ρ hρ _
    apply mul_right_cancel₀ hs2
    calc evalF ρ (t.foldl (Factors.normalStep b) (Factors.normalStep b s p)).1 *
        evalF ρ s.2 * evalF ρ (Factors.normalStep b s p).2
        = (evalF ρ (t.foldl (Factors.normalStep b)
            (Factors.normalStep b s p)).1 *
            evalF ρ (Factors.normalStep b s p).2) * evalF ρ s.2 := by ring
      _ = (evalF ρ (Factors.normalStep b s p).1 *
            evalF ρ (t.foldl (Factors.normalStep b)
              (Factors.normalStep b s p)).2) * evalF ρ s.2 := by rw [hA]
      _ = evalF ρ (t.foldl (Factors.normalStep b)
            (Factors.normalStep b s p)).2 *
          (evalF ρ (Factors.normalStep b s p).1 * evalF ρ s.2) := by ring
      _ = evalF ρ (t.foldl (Factors.normalStep b)
            (Factors.normalStep b s p)).2 *
          (evalF ρ s.1 * evalF ρ (Factors.normalStep b s p).2) := by rw [hB]
      _ = evalF ρ s.1 *
          evalF ρ (t.foldl (Factors.normalStep b)
            (Factors.normalStep b s p)).2 *
          evalF ρ (Factors.normalStep b s p).2 := by ring

theorem evalF_normal (ρ : α → Rat) (hρ : ∀ x, ρ x ≠ 0) (a b : Factors α)
    (ha : NodupKeys a) (hb : NodupKeys b) :
    evalF ρ (Factors.normal a b).1 * evalF ρ b =
      evalF ρ a * evalF ρ (Factors.normal a b).2 :=
  normal_fold_eval ρ hρ b a (a, b) ha hb ha
    (fun p hp => dget_of_mem a ha hp) (fun _ _ => rfl)

end EvalLayer

section TermEval

variable {α : Type} [DecidableEq α]

/-- Dict-validity of a Term (Python dicts have unique keys) together with a
nonzero coefficient (a zero coefficient would be a zero addend, which the
expression tree never produces). -/
def TermValid (t : Term α) : Prop :=
  NodupKeys t.numer ∧ NodupKeys t.denom ∧ t.coeff ≠ 0

theorem evalT_mul (ρ : α → Rat) (hρ : ∀ x, ρ x ≠ 0) (t u : Term α)
    (htn : NodupKeys t.numer) (htd : NodupKeys t.denom) :
    evalT ρ (Term.mul t u) = evalT ρ t * evalT ρ u := by
  have hn := evalF_normal ρ hρ (Factors.mul t.numer u.numer)
    (Factors.mul t.denom u.denom) (nodupKeys_mul _ _ htn)
    (nodupKeys_mul _ _ htd)
  rw [evalF_mul ρ hρ t.numer u.numer htn,
    evalF_mul ρ hρ t.denom u.denom htd] at hn
  have hN2 := evalF_ne_zero ρ hρ (Factors.normal
    (Factors.mul t.numer u.numer) (Factors.mul t.denom u.denom)).2
  have htd0 := evalF_ne_zero ρ hρ t.denom
  have hud0 := evalF_ne_zero ρ hρ u.denom
  have key : evalF ρ (Factors.normal (Factors.mul t.numer u.numer)
        (Factors.mul t.denom u.denom)).1 /
      evalF ρ (Factors.normal (Factors.mul t.numer u.numer)
        (Factors.mul t.denom u.denom)).2 =
      evalF ρ t.numer * evalF ρ u.numer /
        (evalF ρ t.denom * evalF ρ u.denom) := by
    rw [div_eq_div_iff hN2 (mul_ne_zero htd0 hud0)]
    exact hn
  show t.coeff * u.coeff *
      evalF ρ (Factors.normal (Factors.mul t.numer u.numer)
        (Factors.mul t.denom u.denom)).1 /
      evalF ρ (Factors.normal (Factors.mul t.numer u.numer)
        (Factors.mul t.denom u.denom)).2 =
    (t.coeff * evalF ρ t.numer / evalF ρ t.denom) *
      (u.coeff * evalF ρ u.numer / evalF ρ u.denom)
  rw [mul_div_assoc, key]
  field_simp
  ring

theorem evalT_inv (ρ : α → Rat) (hρ : ∀ x, ρ x ≠ 0) (t : Term α)
    (hc : t.coeff ≠ 0) :
    evalT ρ (Term.inv t) = (evalT ρ t)⁻¹ := by
  show 1 / t.coeff * evalF ρ t.denom / evalF ρ t.numer =
    (t.coeff * evalF ρ t.numer / evalF ρ t.denom)⁻¹
  have h1 := evalF_ne_zero ρ hρ t.numer
  have h2 := evalF_ne_zero ρ hρ t.denom
  field_simp

theorem evalT_quo (ρ : α → Rat) (hρ : ∀ x, ρ x ≠ 0) (t u : Term α)
    (htn : NodupKeys t.numer) (htd : NodupKeys t.denom) (hc : u.coeff ≠ 0) :
    evalT ρ (Term.quo t u) = evalT ρ t / evalT ρ u := by
  rw [show Term.quo t u = Term.mul t (Term.inv u) from rfl,
    evalT_mul ρ hρ t (Term.inv u) htn htd, evalT_inv ρ hρ u hc,
    div_eq_mul_inv]

theorem evalT_ne_zero (ρ : α → Rat) (hρ : ∀ x, ρ x ≠ 0) (t : Term α)
    (hc : t.coeff ≠ 0) : evalT ρ t ≠ 0 := by
  unfold evalT
  exact div_ne_zero (mul_ne_zero hc (evalF_ne_zero ρ hρ t.numer))
    (evalF_ne_zero ρ hρ t.denom)

theorem ratGcd_ne_zero {a b : Rat} (ha : a ≠ 0) (hb : b ≠ 0) :
    ratGcd a b ≠ 0 := by
  unfold ratGcd
  apply div_ne_zero
  · rw [Nat.cast_ne_zero]
    intro hg
    exact Rat.num_ne_zero.mpr ha (Int.gcd_eq_zero_iff.mp hg).1
  · rw [Nat.cast_ne_zero]
    exact Nat.lcm_ne_zero (Rat.den_ne_zero a) (Rat.den_ne_zero b)

theorem termValid_mul (t u : Term α) (ht : TermValid t) (hu : TermValid u) :
    TermValid (Term.mul t u) :=
  ⟨(nodupKeys_normal _ _ (nodupKeys_mul _ _ ht.1)
      (nodupKeys_mul _ _ ht.2.1)).1,
    (nodupKeys_normal _ _ (nodupKeys_mul _ _ ht.1)
      (nodupKeys_mul _ _ ht.2.1)).2,
    mul_ne_zero ht.2.2 hu.2.2⟩

theorem termValid_inv (t : Term α) (ht : TermValid t) :
    TermValid (Term.inv t) :=
  ⟨ht.2.1, ht.1, one_div_ne_zero ht.2.2⟩

theorem termValid_quo (t u : Term α) (ht : TermValid t) (hu : TermValid u) :
    TermValid (Term.quo t u) :=
  termValid_mul t (Term.inv u) ht (termValid_inv u hu)

theorem termValid_gcd (t u : Term α) (ht : TermValid t) (hu : TermValid u) :
    TermValid (Term.gcd t u) :=
  ⟨nodupKeys_gcd _ _, nodupKeys_gcd _ _, ratGcd_ne_zero ht.2.2 hu.2.2⟩

theorem termValid_foldl_gcd (rest : List (Term α)) :
    ∀ t0 : Term α, TermValid t0 → (∀ u ∈ rest, TermValid u) →
      TermValid (rest.foldl Term.gcd t0) := by
  induction rest with
  | nil => intro t0 h0 _; exact h0
  | cons u t ih =>
    intro t0 h0 hr
    rw [List.foldl_cons]
    exact ih _ (termValid_gcd t0 u h0 (hr u (List.mem_cons_self u t)))
      (fun v hv => hr v (List.mem_cons_of_mem u hv))

theorem nodupKeys_foldl_lcm (ds : List (Factors α)) :
    ∀ d0 : Factors α, NodupKeys d0 → NodupKeys (ds.foldl Factors.lcm d0) := by
  induction ds with
  | nil => intro d0 h; exact h
  | cons d t ih =>
    intro d0 h
    exact ih _ (nodupKeys_lcm d0 d h)

theorem foldl_lcm_dom (ds : List (Factors α)) :
    ∀ d0 : Factors α, (∀ d ∈ ds, NodupKeys d) →
      ∀ (f : α) (e : Int),
        (dget d0 f = some e ∨ ∃ d ∈ ds, dget d f = some e) →
        ∃ e', e ≤ e' ∧ dget (ds.foldl Factors.lcm d0) f = some e' := by
  induction ds with
  | nil =>
    intro d0 _ f e h
    rcases h with h | ⟨d, hd, _⟩
    · exact ⟨e, le_refl e, h⟩
    · cases hd
  | cons d t ih =>
    intro d0 hds f e h
    rw [List.foldl_cons]
    have hnd : NodupKeys d := hds d (List.mem_cons_self d t)
    have htl : ∀ d'' ∈ t, NodupKeys d'' :=
      fun d'' hd'' => hds d'' (List.mem_cons_of_mem d hd'')
    have hlcm : ∀ e : Int, (dget d0 f = some e ∨ dget d f = some e) →
        ∃ e1, e ≤ e1 ∧ dget (Factors.lcm d0 d) f = some e1 := by
      intro e he
      have hl := dget_lcm d0 d hnd f
      rcases h0 : dget d0 f with _ | ea <;> rcases h1 : dget d f with _ | eb <;>
        rw [h0, h1] at hl
      · rcases he with he | he
        · rw [h0] at he; cases he
        · rw [h1] at he; cases he
      · rcases he with he | he
        · rw [h0] at he; cases he
        · rw [h1] at he
          injection he with he
          exact ⟨e, le_refl e, he ▸ hl⟩
      · rcases he with he | he
        · rw [h0] at he
          injection he with he
          exact ⟨e, le_refl e, he ▸ hl⟩
        · rw [h1] at he; cases he
      · rcases he with he | he
        · rw [h0] at he
          injection he with he
          exact ⟨max e eb, le_max_left _ _, he ▸ hl⟩
        · rw [h1] at he
          injection he with he
          exact ⟨max ea e, le_max_right _ _, he ▸ hl⟩
    rcases h with h | ⟨d', hd', hget⟩
    · obtain ⟨e1, he1, hg⟩ := hlcm e (Or.inl h)
      obtain ⟨e', he', hg'⟩ := ih (Factors.lcm d0 d) htl f e1 (Or.inl hg)
      exact ⟨e', le_trans he1 he', hg'⟩
    · rcases List.mem_cons.mp hd' with rfl | hd'
      · obtain ⟨e1, he1, hg⟩ := hlcm e (Or.inr hget)
        obtain ⟨e', he', hg'⟩ := ih (Factors.lcm d0 d') htl f e1 (Or.inl hg)
        exact ⟨e', le_trans he1 he', hg'⟩
      · exact ih (Factors.lcm d0 d) htl f e (Or.inr ⟨d', hd', hget⟩)

theorem div_fold_rem (l : List (α × Int)) :
    ∀ q r : Factors α, (l.map Prod.fst).Nodup →
      (∀ p ∈ l, ∃ e', p.2 ≤ e' ∧ dget q p.1 = some e') →
      (l.foldl Factors.divStep (q, r)).2 = r := by
  induction l with
  | nil => intro q r _ _; rfl
  | cons p t ih =>
    intro q r hnd hdom
    simp only [List.map_cons, List.nodup_cons] at hnd
    rw [List.foldl_cons]
    obtain ⟨e', he', hq⟩ := hdom p (List.mem_cons_self p t)
    have hstep : Factors.divStep (q, r) p =
        ((if e' - p.2 = 0 then ddel q p.1 else dset q p.1 (e' - p.2)), r) := by
      unfold Factors.divStep
      by_cases h0 : e' - p.2 = 0
      · simp only [hq, if_pos h0]
      · simp only [hq, if_neg h0, if_pos (show 0 < e' - p.2 from by omega)]
    rw [hstep]
    apply ih
    · exact hnd.2
    · intro q' hq'
      obtain ⟨e2, he2, hg⟩ := hdom q' (List.mem_cons_of_mem p hq')
      have hne : q'.1 ≠ p.1 :=
        fun hh => hnd.1 (hh ▸ List.mem_map.mpr ⟨q', hq', rfl⟩)
      refine ⟨e2, he2, ?_⟩
      by_cases h0 : e' - p.2 = 0
      · rw [if_pos h0, dget_ddel_ne _ _ _ hne]
        exact hg
      · rw [if_neg h0, dget_dset_ne _ _ _ _ hne]
        exact hg

theorem div_rem_nil (a b : Factors α) (hb : NodupKeys b)
    (hdom : ∀ p ∈ b, ∃ e', p.2 ≤ e' ∧ dget a p.1 = some e') :
    Factors.rem a b = [] :=
  div_fold_rem b a [] hb hdom

end TermEval

section GcdTermsModel

variable {α : Type} [DecidableEq α]

/-- The `cont` term of `_gcd_terms` (lines 355-358): left fold of `Term.gcd`
over the addends' Terms. -/
def gcdTermsCont (t0 : Term α) (rest : List (Term α)) : Term α :=
  rest.foldl Term.gcd t0

/-- The common denominator of `_gcd_terms` (lines 363-366): fold of
`Factors.lcm` over the denominators of the content-reduced terms. -/
def gcdTermsDenom (t0 : Term α) (rest : List (Term α)) : Factors α :=
  ((rest.map fun t => Term.quo t (gcdTermsCont t0 rest)).map Term.denom).foldl
    Factors.lcm (Term.quo t0 (gcdTermsCont t0 rest)).denom

/-- The per-addend numerators of `_gcd_terms` (lines 368-372): the reduced
term's coefficient paired with `term.numer.mul(denom.quo(term.denom))`. -/
def gcdTermsNumers (t0 : Term α) (rest : List (Term α)) :
    List (Rat × Factors α) :=
  ((t0 :: rest).map fun t => Term.quo t (gcdTermsCont t0 rest)).map fun u =>
    (u.coeff, Factors.mul u.numer
      (Factors.quo (gcdTermsDenom t0 rest) u.denom))

/-- The three-way result shape of `_gcd_terms` (lines 348-352 and 354-381). -/
inductive GcdTermsOut (α : Type) where
  | zero : GcdTermsOut α
  | single (t : Term α) : GcdTermsOut α
  | multi (cont : Term α) (numers : List (Rat × Factors α))
      (denom : Factors α) : GcdTermsOut α

/-- The part of `_gcd_terms` downstream of line 354's
`terms = map(Term, terms)`: it consumes the addends' constructed Terms.
With `isprimitive = True`: no addends gives `(0, 0, 1)`, one addend gives
`(term, 1, 1)`, otherwise the gcd/lcm pipeline of lines 355-381 runs.  The
`isprimitive = False` variant additionally calls the external `primitive()`
collaborator on the numerator sum; its contract `expr == cont * primitive`
moves a scalar between content and numerator without changing the product
stated in `gcd_terms_correct`.  The composition with the construction step
itself is `gcdTermsFromAddends`. -/
def gcdTermsRun (ts : List (Term α)) : GcdTermsOut α :=
  match ts with
  | [] => GcdTermsOut.zero
  | [t] => GcdTermsOut.single t
  | t :: u :: rest =>
    GcdTermsOut.multi (gcdTermsCont t (u :: rest))
      (gcdTermsNumers t (u :: rest)) (gcdTermsDenom t (u :: rest))

/-- `_gcd_terms` end to end on the addends themselves, each given as its
`as_coeff_mul` coefficient and decomposed factor sequence: line 354's
`terms = map(Term, terms)` (`Term.build`, with its dict overwrite on
duplicate decomposed bases) followed by the pipeline of lines 355-381. -/
def gcdTermsFromAddends (addends : List (Rat × List (DFactor α))) :
    GcdTermsOut α :=
  gcdTermsRun (addends.map fun a => Term.build a.1 a.2)

/-- Value of the `content` expression returned by `_gcd_terms`. -/
def outContent (ρ : α → Rat) : GcdTermsOut α → Rat
  | GcdTermsOut.zero => 0
  | GcdTermsOut.single t => evalT ρ t
  | GcdTermsOut.multi c _ _ => evalT ρ c

/-- Value of the numerator expression `Add(*numers)` returned by
`_gcd_terms`. -/
def outNumer (ρ : α → Rat) : GcdTermsOut α → Rat
  | GcdTermsOut.zero => 0
  | GcdTermsOut.single _ => 1
  | GcdTermsOut.multi _ ns _ => (ns.map fun p => p.1 * evalF ρ p.2).sum

/-- Value of the denominator expression returned by `_gcd_terms`. -/
def outDenom (ρ : α → Rat) : GcdTermsOut α → Rat
  | GcdTermsOut.zero => 1
  | GcdTermsOut.single _ => 1
  | GcdTermsOut.multi _ _ d => evalF ρ d

theorem gcdTermsDenom_dom (t0 : Term α) (rest : List (Term α))
    (hv : ∀ t ∈ t0 :: rest, TermValid t) :
    ∀ t ∈ t0 :: rest, ∀ p ∈ (Term.quo t (gcdTermsCont t0 rest)).denom,
      ∃ e', p.2 ≤ e' ∧ dget (gcdTermsDenom t0 rest) p.1 = some e' := by
  intro t ht p hp
  have hcv : TermValid (gcdTermsCont t0 rest) :=
    termValid_foldl_gcd rest t0 (hv t0 (List.mem_cons_self t0 rest))
      (fun u hu => hv u (List.mem_cons_of_mem t0 hu))
  have hqv : TermValid (Term.quo t (gcdTermsCont t0 rest)) :=
    termValid_quo t _ (hv t ht) hcv
  have hget : dget (Term.quo t (gcdTermsCont t0 rest)).denom p.1 = some p.2 :=
    dget_of_mem _ hqv.2.1 hp
  have hds : ∀ d ∈ (rest.map fun t =>
      Term.quo t (gcdTermsCont t0 rest)).map Term.denom, NodupKeys d := by
    intro d hd
    simp only [List.map_map, List.mem_map] at hd
    obtain ⟨u, hu, rfl⟩ := hd
    exact (termValid_quo u _ (hv u (List.mem_cons_of_mem t0 hu)) hcv).2.1
  rcases List.mem_cons.mp ht with rfl | ht
  · exact foldl_lcm_dom _ _ hds p.1 p.2 (Or.inl hget)
  · refine foldl_lcm_dom _ _ hds p.1 p.2
      (Or.inr ⟨(Term.quo t (gcdTermsCont t0 rest)).denom, ?_, hget⟩)
    simp only [List.map_map, List.mem_map]
    exact ⟨t, ht, rfl⟩

theorem gcdTerms_per_addend (ρ : α → Rat) (hρ : ∀ x, ρ x ≠ 0)
    (t0 : Term α) (rest : List (Term α))
    (hv : ∀ t ∈ t0 :: rest, TermValid t) :
    ∀ t ∈ t0 :: rest,
      evalT ρ (gcdTermsCont t0 rest) *
        ((Term.quo t (gcdTermsCont t0 rest)).coeff *
          evalF ρ (Factors.mul (Term.quo t (gcdTermsCont t0 rest)).numer
            (Factors.quo (gcdTermsDenom t0 rest)
              (Term.quo t (gcdTermsCont t0 rest)).denom))) /
        evalF ρ (gcdTermsDenom t0 rest) = evalT ρ t := by
  intro t ht
  have hcv : TermValid (gcdTermsCont t0 rest) :=
    termValid_foldl_gcd rest t0 (hv t0 (List.mem_cons_self t0 rest))
      (fun u hu => hv u (List.mem_cons_of_mem t0 hu))
  have hq0v : TermValid (Term.quo t0 (gcdTermsCont t0 rest)) :=
    termValid_quo t0 _ (hv t0 (List.mem_cons_self t0 rest)) hcv
  have hqv : TermValid (Term.quo t (gcdTermsCont t0 rest)) :=
    termValid_quo t _ (hv t ht) hcv
  have hdl : NodupKeys (gcdTermsDenom t0 rest) :=
    nodupKeys_foldl_lcm _ _ hq0v.2.1
  have hrem : (Factors.div (gcdTermsDenom t0 rest)
      (Term.quo t (gcdTermsCont t0 rest)).denom).2 = [] :=
    div_rem_nil _ _ hqv.2.1 (gcdTermsDenom_dom t0 rest hv t ht)
  have hdiv := evalF_div ρ hρ (gcdTermsDenom t0 rest)
    (Term.quo t (gcdTermsCont t0 rest)).denom hdl hqv.2.1
  rw [hrem, evalF_nil, mul_one] at hdiv
  have hud := evalF_ne_zero ρ hρ (Term.quo t (gcdTermsCont t0 rest)).denom
  have hD := evalF_ne_zero ρ hρ (gcdTermsDenom t0 rest)
  have hC := evalT_ne_zero ρ hρ (gcdTermsCont t0 rest) hcv.2.2
  have hQDv : evalF ρ (Factors.quo (gcdTermsDenom t0 rest)
      (Term.quo t (gcdTermsCont t0 rest)).denom) =
      evalF ρ (gcdTermsDenom t0 rest) /
        evalF ρ (Term.quo t (gcdTermsCont t0 rest)).denom := by
    rw [eq_div_iff hud]
    exact hdiv
  rw [evalF_mul ρ hρ _ _ hqv.1, hQDv]
  have huev : (Term.quo t (gcdTermsCont t0 rest)).coeff *
      evalF ρ (Term.quo t (gcdTermsCont t0 rest)).numer /
      evalF ρ (Term.quo t (gcdTermsCont t0 rest)).denom =
      evalT ρ t / evalT ρ (gcdTermsCont t0 rest) :=
    evalT_quo ρ hρ t _ (hv t ht).1 (hv t ht).2.1 hcv.2.2
  have step1 : evalT ρ (gcdTermsCont t0 rest) *
      ((Term.quo t (gcdTermsCont t0 rest)).coeff *
        (evalF ρ (Term.quo t (gcdTermsCont t0 rest)).numer *
          (evalF ρ (gcdTermsDenom t0 rest) /
            evalF ρ (Term.quo t (gcdTermsCont t0 rest)).denom))) /
      evalF ρ (gcdTermsDenom t0 rest) =
      evalT ρ (gcdTermsCont t0 rest) *
        ((Term.quo t (gcdTermsCont t0 rest)).coeff *
          evalF ρ (Term.quo t (gcdTermsCont t0 rest)).numer /
          evalF ρ (Term.quo t (gcdTermsCont t0 rest)).denom) := by
    field_simp
    ring
  rw [step1, huev]
  field_simp

theorem sum_factor_div (A D : Rat) (l : List (Term α)) (w v : Term α → Rat)
    (h : ∀ t ∈ l, A * w t / D = v t) :
    A * (l.map w).sum / D = (l.map v).sum := by
  induction l with
  | nil => simp
  | cons t l ih =>
    simp only [List.map_cons, List.sum_cons]
    rw [mul_add, add_div, h t (List.mem_cons_self t l),
      ih (fun t' ht' => h t' (List.mem_cons_of_mem t ht'))]

end GcdTermsModel

/-- The gcd/lcm pipeline of `_gcd_terms` downstream of construction
(lines 355-381) preserves the sum of the values of the Terms it is given:
`content * numerator / denominator` equals the sum of the Term values under
every assignment of nonzero rational values to the factor keys.  The
construction step of line 354 that precedes the pipeline is lossy, so this
identity does not extend to the addends themselves — see
`gcd_terms_overwrite_divergence`. -/
theorem gcd_terms_correct {α : Type} [DecidableEq α] (ρ : α → Rat)
    (hρ : ∀ x, ρ x ≠ 0) (ts : List (Term α))
    (hts : ∀ t ∈ ts, TermValid t) :
    outContent ρ (gcdTermsRun ts) * outNumer ρ (gcdTermsRun ts) /
      outDenom ρ (gcdTermsRun ts) = (ts.map (evalT ρ)).sum := by
  rcases ts with _ | ⟨t0, ts'⟩
  · simp [gcdTermsRun, outContent, outNumer, outDenom]
  rcases ts' with _ | ⟨u0, rest⟩
  · simp [gcdTermsRun, outContent, outNumer, outDenom]
  have hper := gcdTerms_per_addend ρ hρ t0 (u0 :: rest) hts
  show evalT ρ (gcdTermsCont t0 (u0 :: rest)) *
      ((gcdTermsNumers t0 (u0 :: rest)).map fun p => p.1 * evalF ρ p.2).sum /
      evalF ρ (gcdTermsDenom t0 (u0 :: rest)) =
    ((t0 :: u0 :: rest).map (evalT ρ)).sum
  rw [gcdTermsNumers, List.map_map, List.map_map]
  exact sum_factor_div _ _ (t0 :: u0 :: rest) _ _ (fun t ht => hper t ht)

instance termValidDecidable {α : Type} [DecidableEq α] (t : Term α) :
    Decidable (TermValid t) :=
  inferInstanceAs (Decidable (NodupKeys t.numer ∧ NodupKeys t.denom ∧
    t.coeff ≠ 0))

/-- Closed instance of `gcd_terms_correct`: the two Terms `x0` and `1/x0`
under the assignment `x0 := 2`. -/
theorem gcd_terms_correct_witness :
    ((∀ t ∈ [(⟨1, [(0, 1)], []⟩ : Term Nat), ⟨1, [], [(0, 1)]⟩],
        TermValid t) ∧ ∀ x : Nat, (fun _ : Nat => (2 : Rat)) x ≠ 0) ∧
    outContent (fun _ : Nat => 2)
        (gcdTermsRun [(⟨1, [(0, 1)], []⟩ : Term Nat), ⟨1, [], [(0, 1)]⟩]) *
      outNumer (fun _ : Nat => 2)
        (gcdTermsRun [(⟨1, [(0, 1)], []⟩ : Term Nat), ⟨1, [], [(0, 1)]⟩]) /
      outDenom (fun _ : Nat => 2)
        (gcdTermsRun [(⟨1, [(0, 1)], []⟩ : Term Nat), ⟨1, [], [(0, 1)]⟩]) =
      ([(⟨1, [(0, 1)], []⟩ : Term Nat), ⟨1, [], [(0, 1)]⟩].map
        (evalT (fun _ : Nat => 2))).sum :=
  ⟨⟨by decide, fun _ => by norm_num⟩,
    gcd_terms_correct (fun _ : Nat => 2) (fun _ => by norm_num) _ (by decide)⟩

/-- The addends `(x+1)**2 * (2*x+2)` and `y`, decomposed as `Term.__init__`
sees them: key `0` is the primitive base `x+1` (both `(x+1)**2` and
`2*x+2 == 2*(x+1)` fold to it), key `1` is the symbol `y`. -/
def overwriteAddends : List (Rat × List (DFactor Nat)) :=
  [(1, [⟨true, 1, 0, 2⟩, ⟨true, 2, 0, 1⟩]), (1, [⟨false, 1, 1, 1⟩])]

/-- The assignment `x+1 := 2, y := 1` (that is, `x := 1, y := 1`). -/
def overwriteAssign : Nat → Rat := fun n => if n = 0 then 2 else 1

/-- C1: the sum-preservation property fails of the code.  Lines 251-254
store each decomposed base with the plain dict assignments
`numer[base] = exp` / `denom[base] = -exp`, so when two multiplicative
factors of one addend decompose to the same base after the `primitive()`
fold of lines 247-249, the later factor's exponent overwrites the earlier
one.  For the addends `(x+1)**2 * (2*x+2)` and `y`, the factor `(x+1)**2`
stores `numer[x+1] = 2` and the factor `2*x+2` then folds to `2*(x+1)` and
overwrites it with `numer[x+1] = 1`, so `_gcd_terms` returns
`(1, 2*x+2+y, 1)` although the sum of the addends is `2*(x+1)**3 + y`: at
`x := 1, y := 1` the returned triple combines to `5` while the sum is
`17`. -/
theorem gcd_terms_overwrite_divergence :
    outContent overwriteAssign (gcdTermsFromAddends overwriteAddends) *
        outNumer overwriteAssign (gcdTermsFromAddends overwriteAddends) /
        outDenom overwriteAssign (gcdTermsFromAddends overwriteAddends)
      = 5 ∧
    (overwriteAddends.map (addendVal overwriteAssign)).sum = 17 ∧
    (5 : Rat) ≠ 17 := by
  have hT1 : Term.build 1 ([⟨true, 1, 0, 2⟩, ⟨true, 2, 0, 1⟩] :
      List (DFactor Nat)) = ⟨2, [(0, 1)], []⟩ := by
    norm_num [Term.build, Term.buildStep, dset, dget, dsetAux]
    decide
  have hT2 : Term.build 1 ([⟨false, 1, 1, 1⟩] : List (DFactor Nat)) =
      ⟨1, [(1, 1)], []⟩ := by
    norm_num [Term.build, Term.buildStep, dset, dget, dsetAux]
  have hmap : gcdTermsFromAddends overwriteAddends =
      gcdTermsRun [(⟨2, [(0, 1)], []⟩ : Term Nat), ⟨1, [(1, 1)], []⟩] := by
    rw [gcdTermsFromAddends, overwriteAddends]
    simp only [List.map]
    rw [hT1, hT2]
  refine ⟨?_, ?_, by norm_num⟩
  · rw [hmap]
    norm_num [gcdTermsRun, gcdTermsCont, gcdTermsNumers, gcdTermsDenom,
      outContent, outNumer, outDenom, Term.gcd, Term.quo, Term.mul, Term.inv,
      ratGcd, Factors.gcd, Factors.gcdStep, Factors.mul, Factors.mulStep,
      Factors.lcm, Factors.lcmStep, Factors.quo, Factors.div, Factors.divStep,
      Factors.normal, Factors.normalStep, evalT, evalF, dset, dget, dsetAux,
      ddel, overwriteAssign]
  · norm_num [overwriteAddends, addendVal, DFactor.baseVal, overwriteAssign]

section MaskModel

/-- Minimal expression-tree model for the masking protocol `_mask_nc`:
numbers, symbols carrying their commutativity flag, fresh `Dummy` symbols
(always commutative), sums, products, powers, and generic operator
applications (`Commutator`, `NO`, ...) carrying the commutativity flag the
expression collaborator reports for them. -/
inductive MExpr where
  | num (n : Int)
  | sym (id : Nat) (comm : Bool)
  | dum (id : Nat)
  | add (args : List MExpr)
  | mulE (args : List MExpr)
  | pow (base ex : MExpr)
  | func (fid : Nat) (comm : Bool) (args : List MExpr)

mutual

/-- Structural equality (sympy `==`). -/
def MExpr.beq : MExpr → MExpr → Bool
  | MExpr.num a, MExpr.num b => a == b
  | MExpr.sym i c, MExpr.sym j d => i == j && c == d
  | MExpr.dum i, MExpr.dum j => i == j
  | MExpr.add as, MExpr.add bs => MExpr.beqL as bs
  | MExpr.mulE as, MExpr.mulE bs => MExpr.beqL as bs
  | MExpr.pow a b, MExpr.pow c d => MExpr.beq a c && MExpr.beq b d
  | MExpr.func i c as, MExpr.func j d bs =>
    i == j && c == d && MExpr.beqL as bs
  | _, _ => false

def MExpr.beqL : List MExpr → List MExpr → Bool
  | [], [] => true
  | a :: as, b :: bs => MExpr.beq a b && MExpr.beqL as bs
  | _, _ => false

end

/-- The direct arguments of a node (`expr.args`). -/
def MExpr.children : MExpr → List MExpr
  | MExpr.add as => as
  | MExpr.mulE as => as
  | MExpr.pow b e => [b, e]
  | MExpr.func _ _ as => as
  | _ => []

/-- The elementary shapes `is_Symbol or is_Add or is_Mul or is_Pow` that the
traversal of `_mask_nc` (line 572) never replaces. -/
def elementary : MExpr → Bool
  | MExpr.sym _ _ => true
  | MExpr.dum _ => true
  | MExpr.add _ => true
  | MExpr.mulE _ => true
  | MExpr.pow _ _ => true
  | _ => false

theorem sum_sizeOf_lt (l : List MExpr) : (l.map sizeOf).sum < sizeOf l := by
  induction l with
  | nil => simp
  | cons a t ih =>
    simp only [List.map_cons, List.sum_cons, List.cons.sizeOf_spec]
    omega

theorem children_sizeOf_lt (a : MExpr) :
    ((a.children.map sizeOf).sum) < sizeOf a := by
  cases a with
  | num n => simp [MExpr.children]
  | sym i c => simp [MExpr.children]
  | dum i => simp [MExpr.children]
  | add as =>
    have h := sum_sizeOf_lt as
    simp only [MExpr.children, MExpr.add.sizeOf_spec]
    omega
  | mulE as =>
    have h := sum_sizeOf_lt as
    simp only [MExpr.children, MExpr.mulE.sizeOf_spec]
    omega
  | pow b e =>
    simp only [MExpr.children, MExpr.pow.sizeOf_spec, List.map_cons,
      List.map_nil, List.sum_cons, List.sum_nil]
    omega
  | func i c as =>
    have h := sum_sizeOf_lt as
    simp only [MExpr.children, MExpr.func.sizeOf_spec]
    omega

/-- Commutativity of every expression on the worklist: numbers and dummies
are commutative, symbols and operator nodes report their flag, sums,
products and powers are commutative exactly when all their arguments are. -/
def commList : List MExpr → Bool
  | [] => true
  | MExpr.num _ :: rest => commList rest
  | MExpr.dum _ :: rest => commList rest
  | MExpr.sym _ c :: rest => c && commList rest
  | MExpr.func _ c _ :: rest => c && commList rest
  | MExpr.add as :: rest => commList (as ++ rest)
  | MExpr.mulE as :: rest => commList (as ++ rest)
  | MExpr.pow b e :: rest => commList (b :: e :: rest)
termination_by l => (l.map sizeOf).sum
decreasing_by
  all_goals
    simp only [List.map_cons, List.sum_cons, List.map_append, List.sum_append]
  all_goals
    first
      | (have h := sum_sizeOf_lt as
         simp
         omega)
      | (have h := sum_sizeOf_lt as
         simp)
      | (simp
         omega)
      | (rename_i fid as
         have h := sum_sizeOf_lt as
         simp
         omega)
      | simp
      | omega

/-- `expr.is_commutative`. -/
def MExpr.is_commutative (e : MExpr) : Bool := commList [e]

/-- The noncommutative free symbols of every expression on the worklist,
with multiplicity (sympy's `free_symbols` restricted to noncommutative
symbols; `_mask_nc` line 556). -/
def ncSymsList : List MExpr → List Nat
  | [] => []
  | MExpr.num _ :: rest => ncSymsList rest
  | MExpr.dum _ :: rest => ncSymsList rest
  | MExpr.sym i c :: rest => if c then ncSymsList rest else i :: ncSymsList rest
  | MExpr.func _ _ as :: rest => ncSymsList (as ++ rest)
  | MExpr.add as :: rest => ncSymsList (as ++ rest)
  | MExpr.mulE as :: rest => ncSymsList (as ++ rest)
  | MExpr.pow b e :: rest => ncSymsList (b :: e :: rest)
termination_by l => (l.map sizeOf).sum
decreasing_by
  all_goals
    simp only [List.map_cons, List.sum_cons, List.map_append, List.sum_append]
  all_goals
    first
      | (have h := sum_sizeOf_lt as
         simp
         omega)
      | (have h := sum_sizeOf_lt as
         simp)
      | (simp
         omega)
      | (rename_i fid as
         have h := sum_sizeOf_lt as
         simp
         omega)
      | simp
      | omega

/-- The distinct noncommutative free symbols of an expression
(`nc_syms` of `_mask_nc`). -/
def ncFreeSyms (e : MExpr) : List Nat := (ncSymsList [e]).dedup

end MaskModel

section MaskTraversal

/-- sympy `expr.subs(old, new)`: replace every occurrence of the
subexpression `old` (by structural equality) with `new`, topmost first,
without descending into replacements. -/
def MExpr.subsOne (old new : MExpr) : MExpr → MExpr
  | MExpr.add as =>
    if MExpr.beq (MExpr.add as) old then new
    else MExpr.add (as.attach.map fun x => MExpr.subsOne old new x.1)
  | MExpr.mulE as =>
    if MExpr.beq (MExpr.mulE as) old then new
    else MExpr.mulE (as.attach.map fun x => MExpr.subsOne old new x.1)
  | MExpr.pow b x2 =>
    if MExpr.beq (MExpr.pow b x2) old then new
    else MExpr.pow (MExpr.subsOne old new b) (MExpr.subsOne old new x2)
  | MExpr.func i c as =>
    if MExpr.beq (MExpr.func i c as) old then new
    else MExpr.func i c (as.attach.map fun x => MExpr.subsOne old new x.1)
  | e => if MExpr.beq e old then new else e
termination_by e => sizeOf e
decreasing_by
  all_goals
    first
      | (have h := List.sizeOf_lt_of_mem x.2
         simp
         omega)
      | (simp
         omega)
      | simp
      | omega

/-- Sequential substitution of a list of `(old, new)` pairs
(`expr.subs(rep)` for a list `rep`). -/
def MExpr.subsPairs (e : MExpr) (ps : List (MExpr × MExpr)) : MExpr :=
  ps.foldl (fun acc p => MExpr.subsOne p.1 p.2 acc) e

/-- The preorder traversal of `_mask_nc` (lines 565-577) as a worklist.  The
state is the accumulated replacement list (original, fresh-Dummy id) and the
next Dummy counter.  A node equal to an already-replaced original is skipped
without descending; a noncommutative non-elementary node is recorded for
replacement and not descended into; every other node is descended into. -/
def maskLoop : List MExpr → List (MExpr × Nat) × Nat →
    List (MExpr × Nat) × Nat
  | [], st => st
  | a :: rest, st =>
    if st.1.any fun r => MExpr.beq a r.1 then maskLoop rest st
    else if a.is_commutative = false && elementary a = false then
      maskLoop rest (st.1 ++ [(a, st.2)], st.2 + 1)
    else maskLoop (a.children ++ rest) st
termination_by l _ => (l.map sizeOf).sum
decreasing_by
  all_goals
    simp only [List.map_cons, List.sum_cons, List.map_append, List.sum_append]
    have h := children_sizeOf_lt a
    omega

theorem maskLoop_mono (l : List MExpr) (st : List (MExpr × Nat) × Nat) :
    ∃ tl, (maskLoop l st).1 = st.1 ++ tl := by
  match l with
  | [] =>
    refine ⟨[], ?_⟩
    simp [maskLoop]
  | a :: rest =>
    rw [maskLoop]
    by_cases h1 : st.1.any fun r => MExpr.beq a r.1
    · rw [if_pos h1]
      exact maskLoop_mono rest st
    · rw [if_neg h1]
      by_cases h2 : a.is_commutative = false && elementary a = false
      · rw [if_pos h2]
        obtain ⟨tl, htl⟩ := maskLoop_mono rest (st.1 ++ [(a, st.2)], st.2 + 1)
        refine ⟨(a, st.2) :: tl, ?_⟩
        rw [htl]
        simp
      · rw [if_neg h2]
        exact maskLoop_mono (a.children ++ rest) st
termination_by (l.map sizeOf).sum
decreasing_by
  all_goals
    simp only [List.map_cons, List.sum_cons, List.map_append, List.sum_append]
    have h := children_sizeOf_lt a
    omega

theorem commList_append (l1 l2 : List MExpr) :
    commList (l1 ++ l2) = (commList l1 && commList l2) := by
  match l1 with
  | [] => simp [commList]
  | MExpr.num n :: t =>
    rw [List.cons_append, commList, commList, commList_append t l2]
  | MExpr.dum i :: t =>
    rw [List.cons_append, commList, commList, commList_append t l2]
  | MExpr.sym i c :: t =>
    rw [List.cons_append, commList, commList, commList_append t l2,
      Bool.and_assoc]
  | MExpr.func i c as :: t =>
    rw [List.cons_append, commList, commList, commList_append t l2,
      Bool.and_assoc]
  | MExpr.add as :: t =>
    rw [List.cons_append, commList, commList, ← List.append_assoc,
      commList_append (as ++ t) l2]
  | MExpr.mulE as :: t =>
    rw [List.cons_append, commList, commList, ← List.append_assoc,
      commList_append (as ++ t) l2]
  | MExpr.pow b e :: t =>
    rw [List.cons_append, commList, commList,
      show b :: e :: (t ++ l2) = (b :: e :: t) ++ l2 from rfl,
      commList_append (b :: e :: t) l2]
termination_by (l1.map sizeOf).sum
decreasing_by
  all_goals
    simp only [List.map_cons, List.sum_cons, List.map_append, List.sum_append]
  all_goals
    first
      | (have h := sum_sizeOf_lt as
         simp
         omega)
      | (simp
         omega)
      | simp
      | omega

theorem ncSymsList_append (l1 l2 : List MExpr) :
    ncSymsList (l1 ++ l2) = ncSymsList l1 ++ ncSymsList l2 := by
  match l1 with
  | [] => simp [ncSymsList]
  | MExpr.num n :: t =>
    rw [List.cons_append, ncSymsList, ncSymsList, ncSymsList_append t l2]
  | MExpr.dum i :: t =>
    rw [List.cons_append, ncSymsList, ncSymsList, ncSymsList_append t l2]
  | MExpr.sym i c :: t =>
    rw [List.cons_append, ncSymsList, ncSymsList, ncSymsList_append t l2]
    by_cases hc : c
    · rw [if_pos hc, if_pos hc]
    · rw [if_neg hc, if_neg hc, List.cons_append]
  | MExpr.func i c as :: t =>
    rw [List.cons_append, ncSymsList, ncSymsList, ← List.append_assoc,
      ncSymsList_append (as ++ t) l2]
  | MExpr.add as :: t =>
    rw [List.cons_append, ncSymsList, ncSymsList, ← List.append_assoc,
      ncSymsList_append (as ++ t) l2]
  | MExpr.mulE as :: t =>
    rw [List.cons_append, ncSymsList, ncSymsList, ← List.append_assoc,
      ncSymsList_append (as ++ t) l2]
  | MExpr.pow b e :: t =>
    rw [List.cons_append, ncSymsList, ncSymsList,
      show b :: e :: (t ++ l2) = (b :: e :: t) ++ l2 from rfl,
      ncSymsList_append (b :: e :: t) l2]
termination_by (l1.map sizeOf).sum
decreasing_by
  all_goals
    simp only [List.map_cons, List.sum_cons, List.map_append, List.sum_append]
  all_goals
    first
      | (have h := sum_sizeOf_lt as
         simp
         omega)
      | (simp
         omega)
      | simp
      | omega

theorem commList_cons (a : MExpr) (rest : List MExpr) :
    commList (a :: rest) = (commList [a] && commList rest) := by
  have h := commList_append [a] rest
  simpa using h

theorem ncSymsList_cons (a : MExpr) (rest : List MExpr) :
    ncSymsList (a :: rest) = ncSymsList [a] ++ ncSymsList rest := by
  have h := ncSymsList_append [a] rest
  simpa using h

theorem commList_false_mem (l : List MExpr) (h : commList l = false) :
    ∃ a ∈ l, commList [a] = false := by
  induction l with
  | nil => simp [commList] at h
  | cons a t ih =>
    rw [commList_cons] at h
    rcases Bool.and_eq_false_iff.mp h with h1 | h1
    · exact ⟨a, List.mem_cons_self a t, h1⟩
    · obtain ⟨b, hb, hb2⟩ := ih h1
      exact ⟨b, List.mem_cons_of_mem a hb, hb2⟩

theorem ncSymsList_nil_mem (l : List MExpr) (h : ncSymsList l = []) :
    ∀ a ∈ l, ncSymsList [a] = [] := by
  induction l with
  | nil => intro a ha; cases ha
  | cons a t ih =>
    rw [ncSymsList_cons] at h
    rcases List.append_eq_nil.mp h with ⟨h1, h2⟩
    intro b hb
    rcases List.mem_cons.mp hb with rfl | hb
    · exact h1
    · exact ih h2 b hb

end MaskTraversal

section MaskNC

/-- Packaging of the return value of `_mask_nc` (line 579): the substituted
expression, the dummy-id-to-original map (`None` exactly when no replacement
was recorded), the residual noncommutative-symbol ids, and the advanced
Dummy counter. -/
def mask_nc_pack (expr2 : MExpr) (rep : List (MExpr × Nat))
    (resid : List Nat) (cnt : Nat) :
    MExpr × Option (List (Nat × MExpr)) × List Nat × Nat :=
  (expr2,
    (match rep with
      | [] => none
      | _ => some (rep.map fun r => (r.2, r.1))),
    resid, cnt)

/-- Lines 563-579 of `_mask_nc`: when residual noncommutative symbols remain
or the (possibly already once-substituted) expression still reports as
noncommutative, run the preorder traversal and substitute each recorded
original by its Dummy; otherwise return the expression as is. -/
def mask_nc_core (expr1 : MExpr) (rep1 : List (MExpr × Nat)) (cnt1 : Nat)
    (resid : List Nat) :
    MExpr × Option (List (Nat × MExpr)) × List Nat × Nat :=
  if resid ≠ [] ∨ expr1.is_commutative = false then
    mask_nc_pack
      (MExpr.subsPairs expr1
        ((maskLoop [expr1] (rep1, cnt1)).1.map fun r => (r.1, MExpr.dum r.2)))
      (maskLoop [expr1] (rep1, cnt1)).1 resid (maskLoop [expr1] (rep1, cnt1)).2
  else mask_nc_pack expr1 rep1 resid cnt1

/-- `_mask_nc` (exprtools.py lines 515-579), with the process-global Dummy
counter made an explicit argument.  A commutative expression returns
immediately with the empty replacement dict (line 546); a single
noncommutative free symbol is substituted by a Dummy up front (lines
556-562) and the residual list is empty; otherwise every noncommutative
free symbol is residual (line 563) and the traversal runs. -/
def mask_nc (eq : MExpr) (cnt : Nat) :
    MExpr × Option (List (Nat × MExpr)) × List Nat × Nat :=
  if eq.is_commutative then (eq, some [], [], cnt)
  else if (ncFreeSyms eq).length = 1 then
    mask_nc_core
      (MExpr.subsOne (MExpr.sym ((ncFreeSyms eq).headD 0) false)
        (MExpr.dum cnt) eq)
      [(MExpr.sym ((ncFreeSyms eq).headD 0) false, cnt)] (cnt + 1) []
  else mask_nc_core eq [] cnt (ncFreeSyms eq)

theorem mask_nc_pack_resid (e : MExpr) (r : List (MExpr × Nat))
    (res : List Nat) (c : Nat) : (mask_nc_pack e r res c).2.2.1 = res := rfl

theorem mask_nc_core_resid (e1 : MExpr) (r1 : List (MExpr × Nat)) (c1 : Nat)
    (res : List Nat) : (mask_nc_core e1 r1 c1 res).2.2.1 = res := by
  unfold mask_nc_core
  split <;> rfl

theorem mask_nc_pack_rep_ne (e : MExpr) (r : List (MExpr × Nat))
    (res : List Nat) (c : Nat) (hr : r ≠ []) :
    ∃ p ps, (mask_nc_pack e r res c).2.1 = some (p :: ps) := by
  match r with
  | [] => exact absurd rfl hr
  | x :: xs =>
    refine ⟨(x.2, x.1), xs.map fun r => (r.2, r.1), ?_⟩
    rfl

/-- Outcome of the sum branch of `factor_nc` (lines 605-611): either the
masked expression is handed to the external commutative factorizer and the
result unmasked, or the driver falls through to the prefix/suffix/content
fallback path on the masked expression and the residual symbols. -/
inductive FactorNCOut where
  | delegated (result : MExpr)
  | fb (masked : MExpr) (resid : List Nat)

/-- The dispatch of `factor_nc` on a sum (lines 605-611): mask the
expression; a non-empty replacement dict (`if rep:`) means
`factor(expr).subs(rep)` is returned, with the commutative factorizer as an
oracle; otherwise (`rep` is `None` or the empty, falsy dict) the fallback
path runs. -/
def factor_nc_dispatch (e : MExpr) (oracle : MExpr → MExpr) (cnt : Nat) :
    FactorNCOut :=
  match (mask_nc e cnt).2.1 with
  | some (p :: ps) =>
    FactorNCOut.delegated
      (MExpr.subsPairs (oracle (mask_nc e cnt).1)
        ((p :: ps).map fun r => (MExpr.dum r.1, r.2)))
  | _ => FactorNCOut.fb (mask_nc e cnt).1 (mask_nc e cnt).2.2.1

end MaskNC

section MaskLemmas

theorem maskLoop_replaces (l : List MExpr) (st : List (MExpr × Nat) × Nat)
    (h : (∃ a ∈ l, a.is_commutative = false ∧ ncSymsList [a] = []) ∨
      st.1 ≠ []) :
    (maskLoop l st).1 ≠ [] := by
  match l with
  | [] =>
    rcases h with ⟨a, ha, _⟩ | h
    · cases ha
    · rw [maskLoop]
      exact h
  | a :: rest =>
    rw [maskLoop]
    by_cases h1 : st.1.any fun r => MExpr.beq a r.1
    · rw [if_pos h1]
      refine maskLoop_replaces rest st (Or.inr ?_)
      intro hnil
      rw [hnil] at h1
      simp at h1
    · rw [if_neg h1]
      by_cases h2 : a.is_commutative = false && elementary a = false
      · rw [if_pos h2]
        refine maskLoop_replaces rest (st.1 ++ [(a, st.2)], st.2 + 1)
          (Or.inr ?_)
        simp
      · rw [if_neg h2]
        refine maskLoop_replaces (a.children ++ rest) st ?_
        rcases h with ⟨w, hw, hwc, hws⟩ | hst
        swap
        · exact Or.inr hst
        rcases List.mem_cons.mp hw with rfl | hw
        swap
        · exact Or.inl ⟨w, List.mem_append_right _ hw, hwc, hws⟩
        have helem : elementary w = true := by
          rcases Bool.eq_false_or_eq_true (elementary w) with he | he
          all_goals
            first
              | exact he
              | exact absurd (by simp [hwc, he]) h2
        cases w with
        | num n => simp [MExpr.is_commutative, commList] at hwc
        | dum i => simp [MExpr.is_commutative, commList] at hwc
        | sym i c =>
          simp [MExpr.is_commutative, commList] at hwc
          simp [ncSymsList, hwc] at hws
        | func i c as => simp [elementary] at helem
        | add as =>
          simp only [MExpr.is_commutative, commList, List.append_nil] at hwc
          simp only [ncSymsList, List.append_nil] at hws
          obtain ⟨c, hc, hcF⟩ := commList_false_mem as hwc
          exact Or.inl ⟨c, List.mem_append_left rest hc, hcF,
            ncSymsList_nil_mem as hws c hc⟩
        | mulE as =>
          simp only [MExpr.is_commutative, commList, List.append_nil] at hwc
          simp only [ncSymsList, List.append_nil] at hws
          obtain ⟨c, hc, hcF⟩ := commList_false_mem as hwc
          exact Or.inl ⟨c, List.mem_append_left rest hc, hcF,
            ncSymsList_nil_mem as hws c hc⟩
        | pow b e =>
          rw [MExpr.is_commutative, commList, commList_cons] at hwc
          rw [show ncSymsList [MExpr.pow b e] = ncSymsList (b :: e :: [])
            from by rw [ncSymsList], ncSymsList_cons] at hws
          rcases List.append_eq_nil.mp hws with ⟨hb, he⟩
          rcases Bool.and_eq_false_iff.mp hwc with hfb | hfe
          · exact Or.inl ⟨b, List.mem_append_left rest
              (List.mem_cons_self b [e]), hfb, hb⟩
          · exact Or.inl ⟨e, List.mem_append_left rest
              (List.mem_cons_of_mem b (List.mem_cons_self e [])), hfe, he⟩
termination_by (l.map sizeOf).sum
decreasing_by
  all_goals
    simp only [List.map_cons, List.sum_cons, List.map_append, List.sum_append]
    have h := children_sizeOf_lt a
    omega

end MaskLemmas

/-- C8: the residual noncommutative-symbol list returned by `_mask_nc` is
non-empty only when the input has two or more distinct noncommutative free
symbols; a fully commutative input is returned unchanged with the empty map
and no residual symbols; with exactly one noncommutative free symbol the
residual list is empty. -/
theorem mask_nc_residual (eq : MExpr) (cnt : Nat) :
    (eq.is_commutative = true → mask_nc eq cnt = (eq, some [], [], cnt)) ∧
    ((mask_nc eq cnt).2.2.1 ≠ [] → 2 ≤ (ncFreeSyms eq).length) ∧
    ((ncFreeSyms eq).length = 1 → (mask_nc eq cnt).2.2.1 = []) := by
  refine ⟨?_, ?_, ?_⟩
  · intro h
    rw [mask_nc, if_pos h]
  · intro h
    rw [mask_nc] at h
    by_cases hc : eq.is_commutative = true
    · rw [if_pos hc] at h
      exact absurd rfl h
    · rw [if_neg hc] at h
      by_cases h1 : (ncFreeSyms eq).length = 1
      · rw [if_pos h1, mask_nc_core_resid] at h
        exact absurd rfl h
      · rw [if_neg h1, mask_nc_core_resid] at h
        have h0 : (ncFreeSyms eq).length ≠ 0 := by
          intro h0
          exact h (List.length_eq_zero.mp h0)
        omega
  · intro h1
    rw [mask_nc]
    by_cases hc : eq.is_commutative = true
    · rw [if_pos hc]
    · rw [if_neg hc, if_pos h1, mask_nc_core_resid]

theorem mask_nc_residual_witness :
    ((MExpr.num 3).is_commutative = true ∧
      mask_nc (MExpr.num 3) 0 = (MExpr.num 3, some [], [], 0)) ∧
    ((ncFreeSyms (MExpr.mulE [MExpr.sym 0 false, MExpr.sym 1 true])).length
        = 1 ∧
      (mask_nc (MExpr.mulE [MExpr.sym 0 false, MExpr.sym 1 true]) 0).2.2.1
        = []) := by
  have hcomm : (MExpr.num 3).is_commutative = true := by
    simp [MExpr.is_commutative, commList]
  have hlen :
      (ncFreeSyms (MExpr.mulE [MExpr.sym 0 false, MExpr.sym 1 true])).length
        = 1 := by
    rw [ncFreeSyms,
      show ncSymsList [MExpr.mulE [MExpr.sym 0 false, MExpr.sym 1 true]]
          = [0] from by simp [ncSymsList]]
    rfl
  exact ⟨⟨hcomm, (mask_nc_residual (MExpr.num 3) 0).1 hcomm⟩,
    ⟨hlen, (mask_nc_residual
      (MExpr.mulE [MExpr.sym 0 false, MExpr.sym 1 true]) 0).2.2 hlen⟩⟩

/-- Counterexample to C9 as stated: a fully commutative sum also reaches the
fallback path, with zero (not two or more) noncommutative free symbols,
because `_mask_nc` returns the empty dict for it and the empty dict is falsy
in the `if rep:` test of `factor_nc` (line 606). -/
theorem factor_nc_fallback_cex :
    factor_nc_dispatch (MExpr.add [MExpr.sym 0 true, MExpr.num 1]) id 0 =
      FactorNCOut.fb (MExpr.add [MExpr.sym 0 true, MExpr.num 1]) [] ∧
    ncFreeSyms (MExpr.add [MExpr.sym 0 true, MExpr.num 1]) = [] := by
  have hc : (MExpr.add [MExpr.sym 0 true, MExpr.num 1]).is_commutative
      = true := by
    simp [MExpr.is_commutative, commList]
  have hm : mask_nc (MExpr.add [MExpr.sym 0 true, MExpr.num 1]) 0 =
      (MExpr.add [MExpr.sym 0 true, MExpr.num 1], some [], [], 0) := by
    rw [mask_nc, if_pos hc]
  constructor
  · rw [factor_nc_dispatch.eq_def, hm]
  · simp [ncFreeSyms, ncSymsList]

/-- C9 (amended): the fallback path of `factor_nc` on a sum is entered only
when the sum is commutative (so `_mask_nc` returns the falsy empty dict) or
has two or more distinct noncommutative free symbols; whenever masking
yields a non-empty map, `factor_nc` returns the external commutative
factorizer's result on the masked expression with the placeholders
substituted back. -/
theorem factor_nc_dispatch_spec (e : MExpr) (oracle : MExpr → MExpr)
    (cnt : Nat) :
    (∀ m resid, factor_nc_dispatch e oracle cnt = FactorNCOut.fb m resid →
      e.is_commutative = true ∨ 2 ≤ (ncFreeSyms e).length) ∧
    (∀ p ps, (mask_nc e cnt).2.1 = some (p :: ps) →
      factor_nc_dispatch e oracle cnt = FactorNCOut.delegated
        (MExpr.subsPairs (oracle (mask_nc e cnt).1)
          ((p :: ps).map fun r => (MExpr.dum r.1, r.2)))) := by
  constructor
  · intro m resid h
    by_cases hc : e.is_commutative = true
    · exact Or.inl hc
    · refine Or.inr ?_
      by_cases h1 : (ncFreeSyms e).length = 1
      · exfalso
        have hrep : ∃ q qs, (mask_nc e cnt).2.1 = some (q :: qs) := by
          rw [mask_nc, if_neg hc, if_pos h1, mask_nc_core]
          split
          · apply mask_nc_pack_rep_ne
            obtain ⟨tl, htl⟩ := maskLoop_mono
              [MExpr.subsOne (MExpr.sym ((ncFreeSyms e).headD 0) false)
                (MExpr.dum cnt) e]
              ([(MExpr.sym ((ncFreeSyms e).headD 0) false, cnt)], cnt + 1)
            rw [htl]
            simp
          · apply mask_nc_pack_rep_ne
            simp
        obtain ⟨q, qs, hq⟩ := hrep
        rw [factor_nc_dispatch.eq_def, hq] at h
        exact FactorNCOut.noConfusion h
      · by_cases h0 : (ncFreeSyms e).length = 0
        · exfalso
          have hnil : ncSymsList [e] = [] :=
            (List.dedup_eq_nil _).mp (List.length_eq_zero.mp h0)
          have hcf : e.is_commutative = false :=
            Bool.not_eq_true _ ▸ Bool.eq_false_iff.mpr hc
          have hrep : ∃ q qs, (mask_nc e cnt).2.1 = some (q :: qs) := by
            rw [mask_nc, if_neg hc, if_neg h1, mask_nc_core]
            split
            · apply mask_nc_pack_rep_ne
              exact maskLoop_replaces [e] ([], cnt)
                (Or.inl ⟨e, List.mem_singleton_self e, hcf, hnil⟩)
            · exfalso
              rename_i hcond
              rw [not_or] at hcond
              exact absurd hcf (by simpa using hcond.2)
          obtain ⟨q, qs, hq⟩ := hrep
          rw [factor_nc_dispatch.eq_def, hq] at h
          exact FactorNCOut.noConfusion h
        · omega
  · intro p ps h
    rw [factor_nc_dispatch.eq_def, h]

theorem factor_nc_dispatch_spec_witness :
    (mask_nc (MExpr.sym 0 false) 0).2.1
        = some [(0, MExpr.sym 0 false)] ∧
    factor_nc_dispatch (MExpr.sym 0 false) id 0 = FactorNCOut.delegated
      (MExpr.subsPairs (id (mask_nc (MExpr.sym 0 false) 0).1)
        ([(0, MExpr.sym 0 false)].map fun r => (MExpr.dum r.1, r.2))) := by
  have hm : (mask_nc (MExpr.sym 0 false) 0).2.1
      = some [(0, MExpr.sym 0 false)] := by
    simp [mask_nc, ncFreeSyms, ncSymsList, MExpr.is_commutative, commList,
      mask_nc_core, mask_nc_pack, MExpr.subsOne, MExpr.beq,
      List.dedup_cons_of_not_mem]
  exact ⟨hm, (factor_nc_dispatch_spec (MExpr.sym 0 false) id 0).2
    (0, MExpr.sym 0 false) [] hm⟩
